import Mathlib

/-!
A shallow embedding of the in-memory limit order book from
`order_book/main.go` (package `main`).

Modelling decisions:

* Go `float64` prices and quantities are modelled as `ℚ`.  Every operation the
  program performs on them (comparison, `min`, subtraction of `min`, the
  mid-price average) is exact on the rationals appearing in the claims.
* Go stores `*Order` pointers that are shared between the two `btree.BTree`
  side indexes and the `map[string]*Order` lookup.  To model this aliasing
  faithfully, an `OrderBook` carries an explicit heap (`heap : List Order`);
  price levels and the id-lookup map hold heap addresses (`ℕ`), and in-place
  mutation of an order is an update of the heap cell.
* A `google/btree` keyed by `PriceLevel.Less` is modelled as a list of levels
  kept in the tree's ascending (= best-first) order.  `PriceLevel.Less` is
  side-aware: in the buy tree a higher price is smaller, in the sell tree a
  lower price is smaller, so `Get`/`ReplaceOrInsert`/`Delete` compare levels by
  price equality and `Min`/`Ascend` are `head?` / the list itself.  All levels
  stored in one tree have the side that routed them there, so the comparator
  of a tree is determined by which tree it is (`buy : Bool`).
* The Go map is modelled as an association list; insertion overwrites the
  entry of an existing key in place and appends fresh keys, deletion removes
  the key's entry.  Fallible operations return `Option String × OrderBook`:
  the error message (or `none`) together with the book as the call left it.
-/

/-- `Order` from the source; `Timestamp` is carried but never read by the
program's logic (arrival order is positional). -/
structure Order where
  OrderID : String
  Price : ℚ
  Quantity : ℚ
  Timestamp : ℕ
  Side : String
deriving DecidableEq, Repr

/-- `PriceLevel` from the source; `Orders` holds heap addresses in arrival
order. -/
structure PriceLevel where
  Price : ℚ
  Orders : List ℕ
  Side : String
deriving DecidableEq, Repr

/-- `OrderBook` from the source, plus the explicit heap modelling Go's
pointer store.  `Orders` is the id-lookup map (order id → heap address). -/
structure OrderBook where
  heap : List Order
  BuyTree : List PriceLevel
  SellTree : List PriceLevel
  Orders : List (String × ℕ)
  LastTradedPrice : ℚ
deriving DecidableEq, Repr

/-- `NewOrderBook` from the source: empty trees, empty map, zero last traded
price. -/
def NewOrderBook : OrderBook :=
  ⟨[], [], [], [], 0⟩

/-- Dereference a heap address (lists model Go's object store; addresses
produced by the operations are always in range). -/
def heapGetL (h : List Order) (a : ℕ) : Order :=
  h.getD a ⟨"", 0, 0, 0, ""⟩

def heapGet (ob : OrderBook) (a : ℕ) : Order :=
  heapGetL ob.heap a

def heapSet (ob : OrderBook) (a : ℕ) (o : Order) : OrderBook :=
  { ob with heap := ob.heap.set a o }

/-- The side-aware comparison of `PriceLevel.Less`, restricted to the tree it
is used in: in the buy tree (`buy = true`) a higher price comes first, in the
sell tree a lower price comes first. -/
def priceBetter (buy : Bool) (a b : ℚ) : Bool :=
  if buy then decide (b < a) else decide (a < b)

/-- `btree.Get` with a probe level of the given price: the stored level whose
price is neither `Less` the probe nor conversely, i.e. the equal-price
level. -/
def treeFind (t : List PriceLevel) (p : ℚ) : Option PriceLevel :=
  t.find? (fun l => decide (l.Price = p))

/-- `btree.ReplaceOrInsert`: insert in comparator order, replacing an
existing equal-price level. -/
def treeInsert (buy : Bool) (lvl : PriceLevel) : List PriceLevel → List PriceLevel
  | [] => [lvl]
  | l :: ls =>
    if priceBetter buy lvl.Price l.Price then lvl :: l :: ls
    else if priceBetter buy l.Price lvl.Price then l :: treeInsert buy lvl ls
    else lvl :: ls

/-- `btree.Delete` with an equal-price probe. -/
def treeDelete (p : ℚ) : List PriceLevel → List PriceLevel
  | [] => []
  | l :: ls => if l.Price = p then ls else l :: treeDelete p ls

def getTreeB (ob : OrderBook) (buy : Bool) : List PriceLevel :=
  if buy then ob.BuyTree else ob.SellTree

def setTreeB (ob : OrderBook) (buy : Bool) (t : List PriceLevel) : OrderBook :=
  if buy then { ob with BuyTree := t } else { ob with SellTree := t }

/-- Go map read: value of the entry with the given key. -/
def mapGet (m : List (String × ℕ)) (id : String) : Option ℕ :=
  (m.find? (fun e => decide (e.1 = id))).map (·.2)

/-- Go map write: overwrite the existing entry of the key, or add the key. -/
def mapInsert (id : String) (a : ℕ) : List (String × ℕ) → List (String × ℕ)
  | [] => [(id, a)]
  | e :: es => if e.1 = id then (id, a) :: es else e :: mapInsert id a es

/-- Go map `delete`. -/
def mapDelete (id : String) : List (String × ℕ) → List (String × ℕ)
  | [] => []
  | e :: es => if e.1 = id then es else e :: mapDelete id es

/-- Body of `(*OrderBook).AddOrder` acting on an order that already lives in
the heap at address `a` (the Go function receives a pointer). -/
def addOrderAddr (ob : OrderBook) (a : ℕ) : OrderBook :=
  let o := heapGet ob a
  let ob1 := { ob with Orders := mapInsert o.OrderID a ob.Orders }
  let buy := decide (o.Side = "buy")
  let t := getTreeB ob1 buy
  match treeFind t o.Price with
  | some lvl => setTreeB ob1 buy (treeInsert buy { lvl with Orders := lvl.Orders ++ [a] } t)
  | none => setTreeB ob1 buy (treeInsert buy ⟨o.Price, [a], o.Side⟩ t)

/-- `(*OrderBook).AddOrder` on a fresh order value: allocate it on the heap
and run the pointer-level body. -/
def AddOrder (ob : OrderBook) (o : Order) : OrderBook :=
  addOrderAddr { ob with heap := ob.heap ++ [o] } ob.heap.length

/-- First deletion step of the loop in `(*OrderBook).removeOrder`: drop the
first listed address whose order has the given id; `none` when no order in
the level matches (the Go loop then mutates nothing). -/
def removeFirstID (h : List Order) (id : String) : List ℕ → Option (List ℕ)
  | [] => none
  | a :: as =>
    if (heapGetL h a).OrderID = id then some as
    else (removeFirstID h id as).map (a :: ·)

/-- `(*OrderBook).removeOrder` (unexported helper): look the level up by the
order's own price and side, splice the first id-match out of its sequence,
delete the level if it became empty. -/
def removeOrderAddr (ob : OrderBook) (a : ℕ) : OrderBook :=
  let o := heapGet ob a
  let buy := decide (o.Side = "buy")
  let t := getTreeB ob buy
  match treeFind t o.Price with
  | none => ob
  | some lvl =>
    match removeFirstID ob.heap o.OrderID lvl.Orders with
    | none => ob
    | some os =>
      if os = [] then setTreeB ob buy (treeDelete lvl.Price t)
      else setTreeB ob buy (treeInsert buy { lvl with Orders := os } t)

/-- `(*OrderBook).RemoveOrder`. -/
def RemoveOrder (ob : OrderBook) (id : String) : Option String × OrderBook :=
  match mapGet ob.Orders id with
  | none => (some "order not found", ob)
  | some a =>
    let ob1 := removeOrderAddr ob a
    (none, { ob1 with Orders := mapDelete id ob1.Orders })

/-- `(*OrderBook).ModifyOrderPrice`. -/
def ModifyOrderPrice (ob : OrderBook) (id : String) (newPrice : ℚ) :
    Option String × OrderBook :=
  match mapGet ob.Orders id with
  | none => (some "order not found", ob)
  | some a =>
    let ob1 := removeOrderAddr ob a
    let ob2 := heapSet ob1 a { heapGet ob1 a with Price := newPrice }
    (none, addOrderAddr ob2 a)

/-- `(*OrderBook).ModifyOrderSide`. -/
def ModifyOrderSide (ob : OrderBook) (id : String) (newSide : String) :
    Option String × OrderBook :=
  if newSide ≠ "buy" ∧ newSide ≠ "sell" then (some "invalid side", ob)
  else
    match mapGet ob.Orders id with
    | none => (some "order not found", ob)
    | some a =>
      let ob1 := removeOrderAddr ob a
      let ob2 := heapSet ob1 a { heapGet ob1 a with Side := newSide }
      (none, addOrderAddr ob2 a)

/-- `(*OrderBook).ModifyOrderQuantity`. -/
def ModifyOrderQuantity (ob : OrderBook) (id : String) (newQuantity : ℚ) :
    Option String × OrderBook :=
  if newQuantity < 0 then (some "invalid quantity", ob)
  else
    match mapGet ob.Orders id with
    | none => (some "order not found", ob)
    | some a =>
      if newQuantity = 0 then
        let ob1 := removeOrderAddr ob a
        (none, { ob1 with Orders := mapDelete id ob1.Orders })
      else (none, heapSet ob a { heapGet ob a with Quantity := newQuantity })

/-- The source's local `min` on `float64`. -/
def fmin (a b : ℚ) : ℚ :=
  if a < b then a else b

/-- The trade execution chunk of the loop body of
`(*OrderBook).MatchOrders`: record the trade price (the resting sell order's
price) as the last traded price, then decrement both orders' quantities in
place by the trade quantity `min(buy, sell)`. -/
def tradeStep (ob : OrderBook) (b s : ℕ) : OrderBook :=
  let tradePrice := (heapGet ob s).Price
  let ob1 := { ob with LastTradedPrice := tradePrice }
  let tq := fmin (heapGet ob1 b).Quantity (heapGet ob1 s).Quantity
  let ob2 := heapSet ob1 b { heapGet ob1 b with Quantity := (heapGet ob1 b).Quantity - tq }
  heapSet ob2 s { heapGet ob2 s with Quantity := (heapGet ob2 s).Quantity - tq }

/-- The `if order.Quantity == 0` chunk of the loop body: remove a fully
filled order from its level and delete its id from the lookup map. -/
def dropIfFilled (ob : OrderBook) (a : ℕ) : OrderBook :=
  if (heapGet ob a).Quantity = 0 then
    let r := removeOrderAddr ob a
    { r with Orders := mapDelete (heapGet r a).OrderID r.Orders }
  else ob

/-- One iteration of the loop in `(*OrderBook).MatchOrders`; `none` means the
loop exits.  The Go code indexes `Orders[0]` of both best levels without a
check (it would panic on an empty level, which no consistent book contains);
here an empty best level also stops the loop. -/
def matchStep (ob : OrderBook) : Option OrderBook :=
  match ob.BuyTree.head?, ob.SellTree.head? with
  | some highestBuy, some lowestSell =>
    if lowestSell.Price ≤ highestBuy.Price then
      match highestBuy.Orders.head?, lowestSell.Orders.head? with
      | some b, some s => some (dropIfFilled (dropIfFilled (tradeStep ob b s) b) s)
      | _, _ => none
    else none
  | _, _ => none

/-- The loop of `(*OrderBook).MatchOrders`, made total by a fuel parameter:
`some` is the state in which the loop exited, `none` means the fuel ran out
first.  The Go loop terminates on a state exactly when some fuel suffices. -/
def MatchOrdersFuel : ℕ → OrderBook → Option OrderBook
  | 0, _ => none
  | n + 1, ob =>
    match matchStep ob with
    | none => some ob
    | some ob1 => MatchOrdersFuel n ob1

/-- `(*OrderBook).GetBestBid` (`Min` of the buy tree is its first level). -/
def GetBestBid (ob : OrderBook) : ℚ × Bool :=
  match ob.BuyTree with
  | [] => (0, false)
  | l :: _ => (l.Price, true)

/-- `(*OrderBook).GetBestAsk`. -/
def GetBestAsk (ob : OrderBook) : ℚ × Bool :=
  match ob.SellTree with
  | [] => (0, false)
  | l :: _ => (l.Price, true)

/-- `(*OrderBook).GetMidPrice`. -/
def GetMidPrice (ob : OrderBook) : ℚ × Bool :=
  let bb := GetBestBid ob
  let ba := GetBestAsk ob
  if bb.2 && ba.2 then ((bb.1 + ba.1) / 2, true) else (0, false)

/-- `(*OrderBook).GetCurrentMarketPrice`. -/
def GetCurrentMarketPrice (ob : OrderBook) : ℚ × Bool :=
  if ob.LastTradedPrice ≠ 0 then (ob.LastTradedPrice, true)
  else
    let mid := GetMidPrice ob
    if mid.2 then (mid.1, true) else (0, false)

/-- The documented mutating operations of the book's external interface. -/
inductive Op where
  | add (o : Order)
  | remove (id : String)
  | modifyPrice (id : String) (p : ℚ)
  | modifySide (id : String) (s : String)
  | modifyQuantity (id : String) (q : ℚ)
  | runMatching (fuel : ℕ)
deriving DecidableEq, Repr

/-- Apply one documented operation.  A failed operation leaves the book as
the Go call left it (unchanged).  `runMatching` with insufficient fuel yields
the unchanged book, which is reachable anyway; a `MatchOrders` call that
terminates in Go is captured by every sufficiently large fuel. -/
def applyOp (ob : OrderBook) : Op → OrderBook
  | .add o => AddOrder ob o
  | .remove id => (RemoveOrder ob id).2
  | .modifyPrice id p => (ModifyOrderPrice ob id p).2
  | .modifySide id s => (ModifyOrderSide ob id s).2
  | .modifyQuantity id q => (ModifyOrderQuantity ob id q).2
  | .runMatching n => (MatchOrdersFuel n ob).getD ob

/-- Book states reachable from the empty book by the documented operations. -/
def Reachable (ob : OrderBook) : Prop :=
  ∃ ops : List Op, ob = ops.foldl applyOp NewOrderBook

/-- Reachability when `addOrder` is only ever called with an id that is not
already in the lookup map (no duplicate-id admission). -/
inductive ReachableND : OrderBook → Prop where
  | init : ReachableND NewOrderBook
  | add (ob : OrderBook) (o : Order) : ReachableND ob →
      mapGet ob.Orders o.OrderID = none → ReachableND (AddOrder ob o)
  | remove (ob : OrderBook) (id : String) : ReachableND ob →
      ReachableND (RemoveOrder ob id).2
  | modifyPrice (ob : OrderBook) (id : String) (p : ℚ) : ReachableND ob →
      ReachableND (ModifyOrderPrice ob id p).2
  | modifySide (ob : OrderBook) (id : String) (s : String) : ReachableND ob →
      ReachableND (ModifyOrderSide ob id s).2
  | modifyQuantity (ob : OrderBook) (id : String) (q : ℚ) : ReachableND ob →
      ReachableND (ModifyOrderQuantity ob id q).2
  | runMatching (ob : OrderBook) (n : ℕ) : ReachableND ob →
      ReachableND ((MatchOrdersFuel n ob).getD ob)

/-- All heap addresses resting in a tree, best level first, arrival order
within a level. -/
def treeAddrs (t : List PriceLevel) : List ℕ :=
  (t.map PriceLevel.Orders).flatten

/-- All heap addresses resting in the book. -/
def allAddrs (ob : OrderBook) : List ℕ :=
  treeAddrs ob.BuyTree ++ treeAddrs ob.SellTree

/-- Number of orders resting in the book's levels. -/
def addrCount (ob : OrderBook) : ℕ :=
  (allAddrs ob).length

/-- The side predicate a tree imposes on its levels and orders: the buy tree
holds side `"buy"`, the sell tree everything else. -/
def sideOK (buy : Bool) (s : String) : Prop :=
  if buy then s = "buy" else s ≠ "buy"

/-- Strict best-first ordering of a tree's levels. -/
def SortedT (buy : Bool) (t : List PriceLevel) : Prop :=
  List.Pairwise (fun x y => priceBetter buy x.Price y.Price = true) t

/-- Consistency of one stored level: non-empty, side matches its tree, and
every resting order's own fields agree with the level holding it. -/
def levelOK (ob : OrderBook) (buy : Bool) (lvl : PriceLevel) : Prop :=
  lvl.Orders ≠ [] ∧ sideOK buy lvl.Side ∧
    ∀ a ∈ lvl.Orders, a < ob.heap.length ∧ (heapGet ob a).Price = lvl.Price ∧
      sideOK buy (heapGet ob a).Side

/-- The book consistency invariant: sorted side indexes, consistent non-empty
levels, each resting order in one place with a globally unique id, and the
id-lookup map and the level sequences in exact correspondence. -/
def WF (ob : OrderBook) : Prop :=
  SortedT true ob.BuyTree ∧ SortedT false ob.SellTree ∧
  (∀ lvl ∈ ob.BuyTree, levelOK ob true lvl) ∧
  (∀ lvl ∈ ob.SellTree, levelOK ob false lvl) ∧
  (allAddrs ob).Nodup ∧
  ((allAddrs ob).map (fun a => (heapGet ob a).OrderID)).Nodup ∧
  (ob.Orders.map Prod.fst).Nodup ∧
  (∀ e ∈ ob.Orders, e.2 ∈ allAddrs ob ∧ (heapGet ob e.2).OrderID = e.1) ∧
  (∀ a ∈ allAddrs ob, mapGet ob.Orders (heapGet ob a).OrderID = some a)

instance (ob : OrderBook) : Decidable (WF ob) := by
  unfold WF SortedT levelOK sideOK
  infer_instance

/-- The map/level correspondence exactly as claimed: every order reachable
via the id-lookup map rests in exactly one price level, of its own side and
price, and every resting order is reachable via the map under its id. -/
def LookupLevelSync (ob : OrderBook) : Prop :=
  (∀ e ∈ ob.Orders,
     ((ob.BuyTree ++ ob.SellTree).countP (fun lvl => decide (e.2 ∈ lvl.Orders))) = 1 ∧
     (∀ lvl ∈ getTreeB ob (decide ((heapGet ob e.2).Side = "buy")),
        e.2 ∈ lvl.Orders → lvl.Price = (heapGet ob e.2).Price) ∧
     (∀ lvl ∈ getTreeB ob (!decide ((heapGet ob e.2).Side = "buy")),
        e.2 ∉ lvl.Orders)) ∧
  (∀ lvl ∈ ob.BuyTree ++ ob.SellTree, ∀ a ∈ lvl.Orders,
     mapGet ob.Orders (heapGet ob a).OrderID = some a)

instance (ob : OrderBook) : Decidable (LookupLevelSync ob) := by
  unfold LookupLevelSync
  infer_instance


/-- The tree/level part of the invariant (everything except the lookup-map
correspondence). -/
def TreesOK (ob : OrderBook) : Prop :=
  SortedT true ob.BuyTree ∧ SortedT false ob.SellTree ∧
  (∀ lvl ∈ ob.BuyTree, levelOK ob true lvl) ∧
  (∀ lvl ∈ ob.SellTree, levelOK ob false lvl) ∧
  (allAddrs ob).Nodup ∧
  ((allAddrs ob).map (fun a => (heapGet ob a).OrderID)).Nodup

/-- The lookup-map part of the invariant. -/
def MapOK (ob : OrderBook) : Prop :=
  (ob.Orders.map Prod.fst).Nodup ∧
  (∀ e ∈ ob.Orders, e.2 ∈ allAddrs ob ∧ (heapGet ob e.2).OrderID = e.1) ∧
  (∀ a ∈ allAddrs ob, mapGet ob.Orders (heapGet ob a).OrderID = some a)

/-- Both side indexes are strictly ordered best-first. -/
def SortedBook (ob : OrderBook) : Prop :=
  SortedT true ob.BuyTree ∧ SortedT false ob.SellTree

/-- A level's order sequence resolved to the order values it holds; two books
agree observably on a side exactly when these agree. -/
def resolvedTree (ob : OrderBook) (t : List PriceLevel) : List (ℚ × List Order) :=
  t.map (fun lvl => (lvl.Price, lvl.Orders.map (heapGet ob)))

/-- The four-order scenario of the specification (`main` uses the same
orders). -/
def scenarioOps : List Op :=
  [Op.add ⟨"B1", 100, 10, 1, "buy"⟩, Op.add ⟨"S1", 105, 5, 2, "sell"⟩,
   Op.add ⟨"B2", 102, 7, 3, "buy"⟩, Op.add ⟨"S2", 99, 8, 4, "sell"⟩]

def scenarioBook : OrderBook := scenarioOps.foldl applyOp NewOrderBook

/-- The state in which the matching loop exits on the scenario book (three
iterations suffice: two trades and the final guard check). -/
def scenarioFinal : OrderBook := (MatchOrdersFuel 3 scenarioBook).getD NewOrderBook

/-- Two admissions under one id followed by a price amendment desynchronise
the lookup map from the levels: `removeOrder` splices out the wrong (older)
entry, so the surviving order ends up resting in two levels, one of which no
longer matches its own price field. -/
def divergeOps : List Op :=
  [Op.add ⟨"X", 100, 10, 1, "buy"⟩, Op.add ⟨"X", 100, 7, 2, "buy"⟩,
   Op.modifyPrice "X" 50, Op.add ⟨"Y", 10, 10, 3, "sell"⟩]

def divergeBook : OrderBook := divergeOps.foldl applyOp NewOrderBook

/-- The state after the first matching iteration on `divergeBook`; it is a
fixpoint of the loop body, so `MatchOrders` spins on it forever. -/
def spinBook : OrderBook := (matchStep divergeBook).getD NewOrderBook

/-- Two admissions under one id. -/
def dupOps : List Op :=
  [Op.add ⟨"X", 100, 5, 1, "buy"⟩, Op.add ⟨"X", 102, 7, 2, "buy"⟩]

def dupBook : OrderBook := dupOps.foldl applyOp NewOrderBook

/-- Duplicate adds at one price, then removal: the map entry is deleted while
the younger order keeps resting in the level with its id orphaned. -/
def orphanOps : List Op :=
  [Op.add ⟨"X", 100, 5, 1, "buy"⟩, Op.add ⟨"X", 100, 7, 2, "buy"⟩, Op.remove "X"]

def orphanBook : OrderBook := orphanOps.foldl applyOp NewOrderBook

/-- A small crossed book: one resting bid at 100, one resting ask at 90. -/
def crossOps : List Op :=
  [Op.add ⟨"B", 100, 5, 1, "buy"⟩, Op.add ⟨"S", 90, 3, 2, "sell"⟩]

def crossBook : OrderBook := crossOps.foldl applyOp NewOrderBook

/-! ### Basic facts about the state accessors -/

theorem getTreeB_setTreeB_same (ob : OrderBook) (buy : Bool) (t : List PriceLevel) :
    getTreeB (setTreeB ob buy t) buy = t := by
  cases buy <;> simp [getTreeB, setTreeB]

theorem getTreeB_setTreeB_other (ob : OrderBook) (buy : Bool) (t : List PriceLevel) :
    getTreeB (setTreeB ob buy t) (!buy) = getTreeB ob (!buy) := by
  cases buy <;> simp [getTreeB, setTreeB]

theorem setTreeB_heap (ob : OrderBook) (buy : Bool) (t : List PriceLevel) :
    (setTreeB ob buy t).heap = ob.heap := by
  cases buy <;> simp [setTreeB]

theorem setTreeB_Orders (ob : OrderBook) (buy : Bool) (t : List PriceLevel) :
    (setTreeB ob buy t).Orders = ob.Orders := by
  cases buy <;> simp [setTreeB]

theorem setTreeB_ltp (ob : OrderBook) (buy : Bool) (t : List PriceLevel) :
    (setTreeB ob buy t).LastTradedPrice = ob.LastTradedPrice := by
  cases buy <;> simp [setTreeB]

theorem heapGet_setTreeB (ob : OrderBook) (buy : Bool) (t : List PriceLevel) (a : ℕ) :
    heapGet (setTreeB ob buy t) a = heapGet ob a := by
  cases buy <;> simp [setTreeB, heapGet]

theorem heapGetL_append (h os : List Order) (a : ℕ) (ha : a < h.length) :
    heapGetL (h ++ os) a = heapGetL h a := by
  simp [heapGetL, List.getD_eq_getElem?_getD, List.getElem?_append_left ha]

theorem heapGetL_append_self (h : List Order) (o : Order) :
    heapGetL (h ++ [o]) h.length = o := by
  simp [heapGetL, List.getD_eq_getElem?_getD, List.getElem?_concat_length]

theorem heapGetL_set_self (h : List Order) (a : ℕ) (o : Order) (ha : a < h.length) :
    heapGetL (h.set a o) a = o := by
  simp [heapGetL, List.getD_eq_getElem?_getD, List.getElem?_set_self ha]

theorem heapGetL_set_ne (h : List Order) (a b : ℕ) (o : Order) (hne : a ≠ b) :
    heapGetL (h.set a o) b = heapGetL h b := by
  simp [heapGetL, List.getD_eq_getElem?_getD, List.getElem?_set_ne hne]

theorem heapSet_get_self (ob : OrderBook) (a : ℕ) (o : Order) (ha : a < ob.heap.length) :
    heapGet (heapSet ob a o) a = o :=
  heapGetL_set_self _ _ _ ha

theorem heapSet_get_ne (ob : OrderBook) (a b : ℕ) (o : Order) (hne : a ≠ b) :
    heapGet (heapSet ob a o) b = heapGet ob b :=
  heapGetL_set_ne _ _ _ _ hne

/-! ### The association-list model of the Go map -/

theorem mapGet_cons (e : String × ℕ) (m : List (String × ℕ)) (id : String) :
    mapGet (e :: m) id = if e.1 = id then some e.2 else mapGet m id := by
  by_cases h : e.1 = id <;> simp [mapGet, List.find?_cons, h]

theorem mapGet_mapInsert_self (m : List (String × ℕ)) (id : String) (a : ℕ) :
    mapGet (mapInsert id a m) id = some a := by
  induction m with
  | nil => simp [mapInsert, mapGet_cons]
  | cons e es ih =>
    by_cases h : e.1 = id
    · simp [mapInsert, h, mapGet_cons]
    · simpa [mapInsert, h, mapGet_cons] using ih

theorem mapGet_mapInsert_ne (m : List (String × ℕ)) (id id' : String) (a : ℕ)
    (h : id' ≠ id) : mapGet (mapInsert id a m) id' = mapGet m id' := by
  have hna : ¬((id, a).1 = id') := fun hh => h hh.symm
  induction m with
  | nil =>
    show mapGet [(id, a)] id' = mapGet [] id'
    rw [mapGet_cons, if_neg hna]
  | cons e es ih =>
    by_cases he : e.1 = id
    · simp only [mapInsert, if_pos he]
      rw [mapGet_cons, mapGet_cons, if_neg hna]
      have hne : ¬(e.1 = id') := fun hh => h ((hh ▸ he : id' = id))
      rw [if_neg hne]
    · simp only [mapInsert, if_neg he]
      rw [mapGet_cons, mapGet_cons, ih]

theorem mapInsert_of_get_none (m : List (String × ℕ)) (id : String) (a : ℕ)
    (h : mapGet m id = none) : mapInsert id a m = m ++ [(id, a)] := by
  induction m with
  | nil => rfl
  | cons e es ih =>
    rw [mapGet_cons] at h
    by_cases he : e.1 = id
    · simp [he] at h
    · simp only [if_neg he] at h
      simp [mapInsert, he, ih h]

theorem mapInsert_of_get_self (m : List (String × ℕ)) (id : String) (a : ℕ)
    (h : mapGet m id = some a) : mapInsert id a m = m := by
  induction m with
  | nil => simp [mapGet] at h
  | cons e es ih =>
    obtain ⟨e1, e2⟩ := e
    rw [mapGet_cons] at h
    by_cases he : e1 = id
    · simp only [if_pos he] at h
      obtain rfl : e2 = a := Option.some.inj h
      subst he
      simp [mapInsert]
    · simp only [if_neg he] at h
      simp [mapInsert, he, ih h]

theorem mapGet_eq_some_mem (m : List (String × ℕ)) (id : String) (a : ℕ)
    (h : mapGet m id = some a) : (id, a) ∈ m := by
  induction m with
  | nil => simp [mapGet] at h
  | cons e es ih =>
    obtain ⟨e1, e2⟩ := e
    rw [mapGet_cons] at h
    by_cases he : e1 = id
    · simp only [if_pos he] at h
      obtain rfl : e2 = a := Option.some.inj h
      subst he
      exact List.mem_cons_self _ _
    · simp only [if_neg he] at h
      exact List.mem_cons_of_mem _ (ih h)

theorem mapGet_none_iff (m : List (String × ℕ)) (id : String) :
    mapGet m id = none ↔ ∀ e ∈ m, e.1 ≠ id := by
  constructor
  · intro h e he heq
    induction m with
    | nil => simp at he
    | cons f fs ih =>
      rw [mapGet_cons] at h
      by_cases hf : f.1 = id
      · simp [hf] at h
      · simp only [if_neg hf] at h
        rcases List.mem_cons.mp he with rfl | hmem
        · exact hf heq
        · exact ih h hmem
  · intro h
    induction m with
    | nil => rfl
    | cons f fs ih =>
      rw [mapGet_cons, if_neg (h f (List.mem_cons_self f fs))]
      exact ih fun e he => h e (List.mem_cons_of_mem _ he)

theorem mapDelete_append_last (m : List (String × ℕ)) (id : String) (a : ℕ)
    (h : ∀ e ∈ m, e.1 ≠ id) : mapDelete id (m ++ [(id, a)]) = m := by
  induction m with
  | nil => simp [mapDelete]
  | cons e es ih =>
    simp only [List.cons_append, mapDelete, if_neg (h e (List.mem_cons_self e es))]
    exact congrArg (e :: ·) (ih fun e he => h e (List.mem_cons_of_mem _ he))

theorem mapDelete_sublist (id : String) (m : List (String × ℕ)) :
    (mapDelete id m).Sublist m := by
  induction m with
  | nil => simp [mapDelete]
  | cons e es ih =>
    by_cases he : e.1 = id
    · simp only [mapDelete, if_pos he]
      exact (List.sublist_cons_self e es)
    · simp only [mapDelete, if_neg he]
      exact ih.cons₂ e

theorem mapGet_mapDelete_ne (m : List (String × ℕ)) (id id' : String) (h : id' ≠ id) :
    mapGet (mapDelete id m) id' = mapGet m id' := by
  induction m with
  | nil => rfl
  | cons e es ih =>
    by_cases he : e.1 = id
    · have hne : ¬(e.1 = id') := fun hh => h ((hh ▸ he : id' = id))
      simp only [mapDelete, if_pos he]
      rw [mapGet_cons, if_neg hne]
    · simp only [mapDelete, if_neg he]
      rw [mapGet_cons, mapGet_cons, ih]

theorem mapGet_mapDelete_self (m : List (String × ℕ)) (id : String)
    (hnd : (m.map Prod.fst).Nodup) : mapGet (mapDelete id m) id = none := by
  induction m with
  | nil => rfl
  | cons e es ih =>
    simp only [List.map_cons, List.nodup_cons] at hnd
    by_cases he : e.1 = id
    · simp only [mapDelete, if_pos he]
      rw [mapGet_none_iff]
      intro f hf hfid
      exact hnd.1 (he ▸ hfid ▸ List.mem_map_of_mem Prod.fst hf)
    · simp only [mapDelete, if_neg he, mapGet_cons, if_neg he]
      exact ih hnd.2

theorem mapDelete_mem_ne (m : List (String × ℕ)) (id : String) (e : String × ℕ)
    (hnd : (m.map Prod.fst).Nodup) (he : e ∈ mapDelete id m) : e.1 ≠ id := by
  induction m with
  | nil => simp [mapDelete] at he
  | cons f fs ih =>
    simp only [List.map_cons, List.nodup_cons] at hnd
    by_cases hf : f.1 = id
    · simp only [mapDelete, if_pos hf] at he
      intro hc
      exact hnd.1 (hf ▸ hc ▸ List.mem_map_of_mem Prod.fst he)
    · simp only [mapDelete, if_neg hf] at he
      rcases List.mem_cons.mp he with rfl | hmem
      · exact hf
      · exact ih hnd.2 hmem

theorem mapInsert_mem (m : List (String × ℕ)) (id : String) (a : ℕ) (e : String × ℕ)
    (he : e ∈ mapInsert id a m) : e = (id, a) ∨ e ∈ m := by
  induction m with
  | nil => simp [mapInsert] at he; simp [he]
  | cons f fs ih =>
    by_cases hf : f.1 = id
    · simp only [mapInsert, if_pos hf] at he
      rcases List.mem_cons.mp he with rfl | hmem
      · exact Or.inl rfl
      · exact Or.inr (List.mem_cons_of_mem _ hmem)
    · simp only [mapInsert, if_neg hf] at he
      rcases List.mem_cons.mp he with rfl | hmem
      · exact Or.inr (List.mem_cons_self _ _)
      · rcases ih hmem with h | h
        · exact Or.inl h
        · exact Or.inr (List.mem_cons_of_mem _ h)

theorem mapInsert_keys_nodup (m : List (String × ℕ)) (id : String) (a : ℕ)
    (hnd : (m.map Prod.fst).Nodup) : ((mapInsert id a m).map Prod.fst).Nodup := by
  induction m with
  | nil => simp [mapInsert]
  | cons f fs ih =>
    simp only [List.map_cons, List.nodup_cons] at hnd
    by_cases hf : f.1 = id
    · simp only [mapInsert, if_pos hf, List.map_cons, List.nodup_cons]
      exact ⟨hf ▸ hnd.1, hnd.2⟩
    · simp only [mapInsert, if_neg hf, List.map_cons, List.nodup_cons]
      refine ⟨fun hc => ?_, ih hnd.2⟩
      rcases List.mem_map.mp hc with ⟨e, he, hee⟩
      rcases mapInsert_mem fs id a e he with rfl | hmem
      · exact hf hee.symm
      · exact hnd.1 (hee ▸ List.mem_map_of_mem Prod.fst hmem)

/-! ### The in-level id search of `removeOrder` -/

theorem removeFirstID_none (h : List Order) (id : String) (os : List ℕ)
    (hno : ∀ x ∈ os, (heapGetL h x).OrderID ≠ id) : removeFirstID h id os = none := by
  induction os with
  | nil => rfl
  | cons a as ih =>
    simp only [removeFirstID, if_neg (hno a (List.mem_cons_self a as))]
    rw [ih fun x hx => hno x (List.mem_cons_of_mem _ hx)]
    rfl

theorem removeFirstID_spec (h : List Order) (id : String) (os₁ os₂ : List ℕ) (a : ℕ)
    (hno : ∀ x ∈ os₁, (heapGetL h x).OrderID ≠ id) (ha : (heapGetL h a).OrderID = id) :
    removeFirstID h id (os₁ ++ a :: os₂) = some (os₁ ++ os₂) := by
  induction os₁ with
  | nil => simp [removeFirstID, ha]
  | cons x xs ih =>
    simp only [List.cons_append, removeFirstID,
      if_neg (hno x (List.mem_cons_self x xs))]
    rw [show (xs.append (a :: os₂)) = xs ++ a :: os₂ from rfl,
      ih fun y hy => hno y (List.mem_cons_of_mem _ hy)]
    rfl

/-! ### The side-aware ordered tree -/

theorem priceBetter_irrefl (buy : Bool) (p : ℚ) : priceBetter buy p p = false := by
  cases buy <;> simp [priceBetter]

theorem priceBetter_of_eq (buy : Bool) {p q : ℚ} (h : p = q) :
    priceBetter buy p q = false := by
  subst h; exact priceBetter_irrefl buy p

theorem priceBetter_asymm (buy : Bool) {p q : ℚ} (h : priceBetter buy p q = true) :
    priceBetter buy q p = false := by
  cases buy <;> simp [priceBetter] at h ⊢ <;> exact le_of_lt h

theorem priceBetter_trans (buy : Bool) {p q r : ℚ} (h1 : priceBetter buy p q = true)
    (h2 : priceBetter buy q r = true) : priceBetter buy p r = true := by
  cases buy <;> simp [priceBetter] at h1 h2 ⊢
  · exact h1.trans h2
  · exact h2.trans h1

theorem priceBetter_total (buy : Bool) {p q : ℚ} (h1 : priceBetter buy p q = false)
    (h2 : priceBetter buy q p = false) : p = q := by
  cases buy <;> simp [priceBetter] at h1 h2
  · exact le_antisymm h2 h1
  · exact le_antisymm h1 h2

theorem priceBetter_ne (buy : Bool) {p q : ℚ} (h : priceBetter buy p q = true) :
    p ≠ q := by
  intro hc
  rw [priceBetter_of_eq buy hc] at h
  exact Bool.false_ne_true h

theorem treeFind_some {t : List PriceLevel} {p : ℚ} {lvl : PriceLevel}
    (h : treeFind t p = some lvl) : lvl ∈ t ∧ lvl.Price = p := by
  refine ⟨List.mem_of_find?_eq_some h, ?_⟩
  have := List.find?_some h
  exact of_decide_eq_true this

theorem treeFind_none {t : List PriceLevel} {p : ℚ} :
    treeFind t p = none ↔ ∀ l ∈ t, l.Price ≠ p := by
  rw [treeFind, List.find?_eq_none]
  constructor
  · intro h l hl
    exact of_decide_eq_false (Bool.not_eq_true _ |>.mp (h l hl))
  · intro h l hl
    simpa using h l hl

theorem mem_treeInsert {buy : Bool} {lvl x : PriceLevel} {t : List PriceLevel}
    (h : x ∈ treeInsert buy lvl t) : x = lvl ∨ x ∈ t := by
  induction t with
  | nil => simpa [treeInsert] using h
  | cons l ls ih =>
    by_cases h1 : priceBetter buy lvl.Price l.Price
    · simp only [treeInsert, if_pos h1] at h
      rcases List.mem_cons.mp h with rfl | h2
      · exact Or.inl rfl
      · exact Or.inr h2
    · by_cases h2 : priceBetter buy l.Price lvl.Price
      · simp only [treeInsert, if_neg h1, if_pos h2] at h
        rcases List.mem_cons.mp h with rfl | h3
        · exact Or.inr (List.mem_cons_self _ _)
        · rcases ih h3 with h4 | h4
          · exact Or.inl h4
          · exact Or.inr (List.mem_cons_of_mem _ h4)
      · simp only [treeInsert, if_neg h1, if_neg h2] at h
        rcases List.mem_cons.mp h with rfl | h3
        · exact Or.inl rfl
        · exact Or.inr (List.mem_cons_of_mem _ h3)

theorem treeInsert_sorted (buy : Bool) (lvl : PriceLevel) {t : List PriceLevel}
    (hs : SortedT buy t) : SortedT buy (treeInsert buy lvl t) := by
  induction t with
  | nil => simp [treeInsert, SortedT]
  | cons l ls ih =>
    rw [SortedT, List.pairwise_cons] at hs
    by_cases h1 : priceBetter buy lvl.Price l.Price
    · rw [SortedT]
      simp only [treeInsert, if_pos h1]
      rw [List.pairwise_cons]
      constructor
      · intro x hx
        rcases List.mem_cons.mp hx with rfl | hx2
        · exact h1
        · exact priceBetter_trans buy h1 (hs.1 x hx2)
      · rw [List.pairwise_cons]
        exact hs
    · by_cases h2 : priceBetter buy l.Price lvl.Price
      · rw [SortedT]
        simp only [treeInsert, if_neg h1, if_pos h2]
        rw [List.pairwise_cons]
        constructor
        · intro x hx
          rcases mem_treeInsert hx with rfl | hx2
          · exact h2
          · exact hs.1 x hx2
        · exact ih hs.2
      · have heq : lvl.Price = l.Price :=
          priceBetter_total buy (Bool.not_eq_true _ |>.mp h1) (Bool.not_eq_true _ |>.mp h2)
        rw [SortedT]
        simp only [treeInsert, if_neg h1, if_neg h2]
        rw [List.pairwise_cons]
        refine ⟨fun x hx => ?_, hs.2⟩
        show priceBetter buy lvl.Price x.Price = true
        rw [heq]
        exact hs.1 x hx

theorem treeDelete_sublist (p : ℚ) (t : List PriceLevel) :
    (treeDelete p t).Sublist t := by
  induction t with
  | nil => simp [treeDelete]
  | cons l ls ih =>
    by_cases h : l.Price = p
    · simp only [treeDelete, if_pos h]
      exact List.sublist_cons_self l ls
    · simp only [treeDelete, if_neg h]
      exact ih.cons₂ l

theorem treeDelete_sorted (buy : Bool) (p : ℚ) {t : List PriceLevel}
    (hs : SortedT buy t) : SortedT buy (treeDelete p t) :=
  List.Pairwise.sublist (treeDelete_sublist p t) hs

theorem treeDelete_of_decomp (p : ℚ) (t₁ t₂ : List PriceLevel) (lvl : PriceLevel)
    (h1 : ∀ l ∈ t₁, l.Price ≠ p) (h2 : lvl.Price = p) :
    treeDelete p (t₁ ++ lvl :: t₂) = t₁ ++ t₂ := by
  induction t₁ with
  | nil => simp [treeDelete, h2]
  | cons l ls ih =>
    simp only [List.cons_append, treeDelete,
      if_neg (h1 l (List.mem_cons_self l ls))]
    exact congrArg (l :: ·) (ih fun x hx => h1 x (List.mem_cons_of_mem _ hx))

theorem treeInsert_at (buy : Bool) (lvl lvl0 : PriceLevel) (t₁ t₂ : List PriceLevel)
    (h1 : ∀ l ∈ t₁, priceBetter buy l.Price lvl.Price = true)
    (h0 : lvl0.Price = lvl.Price) :
    treeInsert buy lvl (t₁ ++ lvl0 :: t₂) = t₁ ++ lvl :: t₂ := by
  induction t₁ with
  | nil =>
    simp only [List.nil_append, treeInsert,
      if_neg (Bool.not_eq_true _ |>.mpr (priceBetter_of_eq buy h0.symm)),
      if_neg (Bool.not_eq_true _ |>.mpr (priceBetter_of_eq buy h0))]
  | cons l ls ih =>
    have hb := h1 l (List.mem_cons_self l ls)
    simp only [List.cons_append, treeInsert,
      if_neg (Bool.not_eq_true _ |>.mpr (priceBetter_asymm buy hb)), if_pos hb]
    exact congrArg (l :: ·) (ih fun x hx => h1 x (List.mem_cons_of_mem _ hx))

theorem treeInsert_decomp (buy : Bool) (lvl : PriceLevel) (t : List PriceLevel) :
    (∃ t₁ t₂, t = t₁ ++ t₂ ∧ treeInsert buy lvl t = t₁ ++ lvl :: t₂ ∧
      (∀ l ∈ t₁, priceBetter buy l.Price lvl.Price = true) ∧
      (∀ l ∈ t₂.head?, priceBetter buy lvl.Price l.Price = true))
  ∨ (∃ t₁ l₀ t₂, t = t₁ ++ l₀ :: t₂ ∧ l₀.Price = lvl.Price ∧
      treeInsert buy lvl t = t₁ ++ lvl :: t₂ ∧
      (∀ l ∈ t₁, priceBetter buy l.Price lvl.Price = true)) := by
  induction t with
  | nil =>
    left
    exact ⟨[], [], rfl, rfl, by simp, by simp⟩
  | cons l ls ih =>
    by_cases h1 : priceBetter buy lvl.Price l.Price
    · left
      refine ⟨[], l :: ls, rfl, ?_, by simp, ?_⟩
      · simp [treeInsert, if_pos h1]
      · intro x hx
        simp only [List.head?_cons, Option.mem_def, Option.some.injEq] at hx
        exact hx ▸ h1
    · by_cases h2 : priceBetter buy l.Price lvl.Price
      · rcases ih with ⟨t₁, t₂, heq, hins, hall, hhead⟩ | ⟨t₁, l₀, t₂, heq, hp, hins, hall⟩
        · left
          refine ⟨l :: t₁, t₂, by rw [heq, List.cons_append], ?_, ?_, hhead⟩
          · simp only [treeInsert, if_neg h1, if_pos h2, hins, List.cons_append]
          · intro x hx
            rcases List.mem_cons.mp hx with rfl | hx2
            · exact h2
            · exact hall x hx2
        · right
          refine ⟨l :: t₁, l₀, t₂, by rw [heq, List.cons_append], hp, ?_, ?_⟩
          · simp only [treeInsert, if_neg h1, if_pos h2, hins, List.cons_append]
          · intro x hx
            rcases List.mem_cons.mp hx with rfl | hx2
            · exact h2
            · exact hall x hx2
      · right
        have heq : l.Price = lvl.Price :=
          priceBetter_total buy (Bool.not_eq_true _ |>.mp h2) (Bool.not_eq_true _ |>.mp h1)
        refine ⟨[], l, ls, rfl, heq, ?_, by simp⟩
        simp [treeInsert, if_neg h1, if_neg h2]

theorem sorted_better_of_head (buy : Bool) {p : ℚ} {t : List PriceLevel}
    (hs : SortedT buy t) (hh : ∀ l ∈ t.head?, priceBetter buy p l.Price = true) :
    ∀ l ∈ t, priceBetter buy p l.Price = true := by
  cases t with
  | nil => simp
  | cons l ls =>
    rw [SortedT, List.pairwise_cons] at hs
    intro x hx
    have hpl : priceBetter buy p l.Price = true := hh l (by simp)
    rcases List.mem_cons.mp hx with rfl | hx2
    · exact hpl
    · exact priceBetter_trans buy hpl (hs.1 x hx2)

theorem sorted_unique_price (buy : Bool) {t₁ t₂ : List PriceLevel} {lvl x : PriceLevel}
    (hs : SortedT buy (t₁ ++ lvl :: t₂)) (hx : x ∈ t₁ ++ t₂) :
    x.Price ≠ lvl.Price := by
  rw [SortedT, List.pairwise_append] at hs
  rcases List.mem_append.mp hx with hx1 | hx2
  · exact priceBetter_ne buy (hs.2.2 x hx1 lvl (List.mem_cons_self _ _))
  · have := (List.pairwise_cons.mp hs.2.1).1 x hx2
    exact fun hc => priceBetter_ne buy this hc.symm

theorem treeInsert_replace (buy : Bool) {t : List PriceLevel} {p : ℚ}
    {lvl0 : PriceLevel} (hs : SortedT buy t) (hf : treeFind t p = some lvl0)
    (lvl : PriceLevel) (hp : lvl.Price = p) :
    ∃ t₁ t₂, t = t₁ ++ lvl0 :: t₂ ∧ treeInsert buy lvl t = t₁ ++ lvl :: t₂ ∧
      (∀ l ∈ t₁, priceBetter buy l.Price p = true) ∧
      (∀ l ∈ t₁ ++ t₂, l.Price ≠ p) := by
  obtain ⟨hmem, hp0⟩ := treeFind_some hf
  rcases treeInsert_decomp buy lvl t with
    ⟨t₁, t₂, heq, hins, hall, hhead⟩ | ⟨t₁, l₀, t₂, heq, hl0, hins, hall⟩
  · exfalso
    subst heq
    have hworse : ∀ l ∈ t₂, priceBetter buy lvl.Price l.Price = true := by
      refine sorted_better_of_head buy ?_ hhead
      rw [SortedT] at hs ⊢
      exact List.Pairwise.sublist (List.sublist_append_right t₁ t₂) hs
    rcases List.mem_append.mp hmem with h1 | h2
    · exact priceBetter_ne buy (hall lvl0 h1) (by rw [hp0, hp])
    · exact priceBetter_ne buy (hworse lvl0 h2) (by rw [hp, hp0])
  · have hl0eq : l₀ = lvl0 := by
      subst heq
      by_contra hne
      have hx : lvl0 ∈ t₁ ++ t₂ := by
        rcases List.mem_append.mp hmem with h1 | h2
        · exact List.mem_append.mpr (Or.inl h1)
        · rcases List.mem_cons.mp h2 with rfl | h3
          · exact absurd rfl hne
          · exact List.mem_append.mpr (Or.inr h3)
      exact sorted_unique_price buy hs hx (by rw [hp0, hl0, hp])
    subst hl0eq
    refine ⟨t₁, t₂, heq, hins, ?_, ?_⟩
    · intro l hl
      have := hall l hl
      rwa [hp] at this
    · intro l hl
      have := sorted_unique_price buy (heq ▸ hs) hl
      rwa [hl0, hp] at this

theorem treeInsert_fresh (buy : Bool) {t : List PriceLevel} {p : ℚ}
    (hf : treeFind t p = none) (lvl : PriceLevel) (hp : lvl.Price = p) :
    ∃ t₁ t₂, t = t₁ ++ t₂ ∧ treeInsert buy lvl t = t₁ ++ lvl :: t₂ := by
  rcases treeInsert_decomp buy lvl t with
    ⟨t₁, t₂, heq, hins, _, _⟩ | ⟨t₁, l₀, t₂, heq, hl0, _, _⟩
  · exact ⟨t₁, t₂, heq, hins⟩
  · exfalso
    have := treeFind_none.mp hf l₀ (heq ▸ List.mem_append.mpr (Or.inr (List.mem_cons_self _ _)))
    exact this (hl0.trans hp)

/-! ### Address multiset bookkeeping -/

theorem treeAddrs_nil : treeAddrs [] = [] := rfl

theorem treeAddrs_cons (lvl : PriceLevel) (t : List PriceLevel) :
    treeAddrs (lvl :: t) = lvl.Orders ++ treeAddrs t := by
  simp [treeAddrs]

theorem treeAddrs_append (t₁ t₂ : List PriceLevel) :
    treeAddrs (t₁ ++ t₂) = treeAddrs t₁ ++ treeAddrs t₂ := by
  simp [treeAddrs]

theorem mem_treeAddrs {x : ℕ} {t : List PriceLevel} :
    x ∈ treeAddrs t ↔ ∃ lvl ∈ t, x ∈ lvl.Orders := by
  simp [treeAddrs, List.mem_flatten]

theorem getTreeB_withOrders (ob : OrderBook) (m : List (String × ℕ)) (buy : Bool) :
    getTreeB { ob with Orders := m } buy = getTreeB ob buy := by
  cases buy <;> rfl

theorem heapGet_withOrders (ob : OrderBook) (m : List (String × ℕ)) (a : ℕ) :
    heapGet { ob with Orders := m } a = heapGet ob a := rfl

theorem allAddrs_withOrders (ob : OrderBook) (m : List (String × ℕ)) :
    allAddrs { ob with Orders := m } = allAddrs ob := rfl

theorem allAddrs_eq (ob : OrderBook) :
    allAddrs ob = treeAddrs (getTreeB ob true) ++ treeAddrs (getTreeB ob false) := rfl

/-- The two-sided address list of `setTreeB` keeps the other side as a fixed
prefix or suffix. -/
theorem allAddrs_setTreeB (ob : OrderBook) (buy : Bool) (t : List PriceLevel) :
    ∃ pre post : List ℕ,
      allAddrs (setTreeB ob buy t) = pre ++ (treeAddrs t ++ post) ∧
      allAddrs ob = pre ++ (treeAddrs (getTreeB ob buy) ++ post) ∧
      pre ++ post = treeAddrs (getTreeB ob (!buy)) := by
  cases buy
  · exact ⟨treeAddrs ob.BuyTree, [], by simp [allAddrs, setTreeB, getTreeB],
      by simp [allAddrs, getTreeB], by simp [getTreeB]⟩
  · exact ⟨[], treeAddrs ob.SellTree, by simp [allAddrs, setTreeB, getTreeB],
      by simp [allAddrs, getTreeB], by simp [getTreeB]⟩

/-- Membership in the combined trees splits along `getTreeB`. -/
theorem mem_allAddrs_iff (ob : OrderBook) (x : ℕ) :
    x ∈ allAddrs ob ↔ x ∈ treeAddrs (getTreeB ob true) ∨ x ∈ treeAddrs (getTreeB ob false) := by
  rw [allAddrs_eq]
  exact List.mem_append

/-! ### Structured form of the invariant -/

theorem WF_iff (ob : OrderBook) : WF ob ↔ TreesOK ob ∧ MapOK ob := by
  unfold WF TreesOK MapOK
  tauto

theorem treesOK_sorted {ob : OrderBook} (h : TreesOK ob) (buy : Bool) :
    SortedT buy (getTreeB ob buy) := by
  cases buy
  · exact h.2.1
  · exact h.1

theorem treesOK_level {ob : OrderBook} (h : TreesOK ob) (buy : Bool) :
    ∀ lvl ∈ getTreeB ob buy, levelOK ob buy lvl := by
  cases buy
  · exact h.2.2.2.1
  · exact h.2.2.1

/-- All resting addresses are valid heap indices. -/
theorem treesOK_valid {ob : OrderBook} (h : TreesOK ob) :
    ∀ x ∈ allAddrs ob, x < ob.heap.length := by
  intro x hx
  rcases (mem_allAddrs_iff ob x).mp hx with hb | hb
  · obtain ⟨lvl, hlvl, hxl⟩ := mem_treeAddrs.mp hb
    exact ((treesOK_level h true lvl hlvl).2.2 x hxl).1
  · obtain ⟨lvl, hlvl, hxl⟩ := mem_treeAddrs.mp hb
    exact ((treesOK_level h false lvl hlvl).2.2 x hxl).1

/-- `levelOK` only looks at the heap through valid addresses, so it transports
along heap changes that preserve the cells of the level's orders. -/
theorem levelOK_transport {ob ob' : OrderBook} {buy : Bool} {lvl : PriceLevel}
    (h : levelOK ob buy lvl) (hlen : ob.heap.length ≤ ob'.heap.length)
    (hget : ∀ x ∈ lvl.Orders, heapGet ob' x = heapGet ob x) :
    levelOK ob' buy lvl := by
  refine ⟨h.1, h.2.1, fun x hx => ?_⟩
  obtain ⟨hv, hp, hsd⟩ := h.2.2 x hx
  exact ⟨lt_of_lt_of_le hv hlen, (hget x hx).symm ▸ hp, (hget x hx).symm ▸ hsd⟩

theorem mem_middle_iff {α : Type} {X Y : List α} {a x : α} :
    x ∈ X ++ a :: Y ↔ x = a ∨ x ∈ X ++ Y := by
  simp only [List.mem_append, List.mem_cons]
  tauto

theorem nodup_insert_middle {α : Type} {X Y : List α} {a : α}
    (h : (X ++ Y).Nodup) (ha : a ∉ X ++ Y) : (X ++ a :: Y).Nodup := by
  rw [List.nodup_middle]
  exact List.nodup_cons.mpr ⟨ha, h⟩

theorem nodup_remove_middle {α : Type} {X Y : List α} {a : α}
    (h : (X ++ a :: Y).Nodup) : (X ++ Y).Nodup ∧ a ∉ X ++ Y := by
  rw [List.nodup_middle, List.nodup_cons] at h
  exact ⟨h.2, h.1⟩

theorem heapGet_congr {ob ob' : OrderBook} (h : ob'.heap = ob.heap) :
    ∀ x, heapGet ob' x = heapGet ob x := by
  intro x
  rw [heapGet, h]
  rfl

theorem sideOK_eq {buy : Bool} {s : String} (h : sideOK buy s) :
    buy = decide (s = "buy") := by
  cases buy
  · have h2 : s ≠ "buy" := by simpa [sideOK] using h
    simp [h2]
  · have h2 : s = "buy" := by simpa [sideOK] using h
    simp [h2]

theorem treeFind_cons_pos {l : PriceLevel} {ls : List PriceLevel} {p : ℚ}
    (hl : l.Price = p) : treeFind (l :: ls) p = some l := by
  rw [treeFind]
  exact List.find?_cons_of_pos _ (by simpa using hl)

theorem treeFind_cons_neg {l : PriceLevel} {ls : List PriceLevel} {p : ℚ}
    (hl : l.Price ≠ p) : treeFind (l :: ls) p = treeFind ls p := by
  rw [treeFind, treeFind]
  exact List.find?_cons_of_neg _ (by simpa using hl)

theorem treeFind_decomp {t : List PriceLevel} {p : ℚ} {lvl : PriceLevel}
    (h : treeFind t p = some lvl) :
    ∃ t₁ t₂, t = t₁ ++ lvl :: t₂ ∧ ∀ l ∈ t₁, l.Price ≠ p := by
  induction t with
  | nil => simp [treeFind] at h
  | cons l ls ih =>
    by_cases hl : l.Price = p
    · rw [treeFind_cons_pos hl] at h
      obtain rfl := Option.some.inj h
      exact ⟨[], ls, rfl, by simp⟩
    · rw [treeFind_cons_neg hl] at h
      obtain ⟨t₁, t₂, heq, hne⟩ := ih h
      refine ⟨l :: t₁, t₂, by rw [heq, List.cons_append], ?_⟩
      intro x hx
      rcases List.mem_cons.mp hx with rfl | hx2
      · exact hl
      · exact hne x hx2

theorem treeFind_of_sorted_mem {buy : Bool} {t : List PriceLevel} {lvl : PriceLevel}
    (hs : SortedT buy t) (hmem : lvl ∈ t) : treeFind t lvl.Price = some lvl := by
  induction t with
  | nil => simp at hmem
  | cons l ls ih =>
    rw [SortedT, List.pairwise_cons] at hs
    rcases List.mem_cons.mp hmem with rfl | hmem2
    · exact treeFind_cons_pos rfl
    · have hne : l.Price ≠ lvl.Price := priceBetter_ne buy (hs.1 lvl hmem2)
      rw [treeFind_cons_neg hne]
      exact ih hs.2 hmem2

theorem sorted_replace_samePrice (buy : Bool) {t₁ t₂ : List PriceLevel}
    {lvl lvl' : PriceLevel} (hp : lvl'.Price = lvl.Price)
    (hs : SortedT buy (t₁ ++ lvl :: t₂)) : SortedT buy (t₁ ++ lvl' :: t₂) := by
  rw [SortedT, List.pairwise_append] at hs ⊢
  obtain ⟨h1, h2, h3⟩ := hs
  rw [List.pairwise_cons] at h2
  refine ⟨h1, List.pairwise_cons.mpr ⟨fun x hx => ?_, h2.2⟩, fun x hx y hy => ?_⟩
  · show priceBetter buy lvl'.Price x.Price = true
    rw [hp]
    exact h2.1 x hx
  · rcases List.mem_cons.mp hy with rfl | hy2
    · show priceBetter buy x.Price y.Price = true
      rw [hp]
      exact h3 x hx lvl (List.mem_cons_self _ _)
    · exact h3 x hx y (List.mem_cons_of_mem _ hy2)

theorem allAddrs_decomp_of_trees {ob res : OrderBook} {b : Bool} {u v : List ℕ}
    (hsame : getTreeB res (!b) = getTreeB ob (!b))
    (hb_ob : treeAddrs (getTreeB ob b) = u)
    (hb_res : treeAddrs (getTreeB res b) = v) :
    ∃ pre post : List ℕ, allAddrs ob = pre ++ (u ++ post) ∧
      allAddrs res = pre ++ (v ++ post) := by
  cases b
  · refine ⟨treeAddrs (getTreeB ob true), [], ?_, ?_⟩
    · rw [allAddrs_eq ob, hb_ob]
      simp
    · rw [allAddrs_eq res, hb_res, show getTreeB res true = getTreeB ob true from hsame]
      simp
  · refine ⟨[], treeAddrs (getTreeB ob false), ?_, ?_⟩
    · rw [allAddrs_eq ob, hb_ob]
      simp
    · rw [allAddrs_eq res, hb_res, show getTreeB res false = getTreeB ob false from hsame]
      simp

/-- Shape of `AddOrder`'s pointer-level body: the map gains the id binding,
the order's side tree gains `a` at the back of the equal-price level (created
as a singleton when absent), everything else is untouched. -/
theorem addOrderAddr_decomp (ob : OrderBook) (a : ℕ)
    (hs : SortedT (decide ((heapGet ob a).Side = "buy"))
      (getTreeB ob (decide ((heapGet ob a).Side = "buy")))) :
    (addOrderAddr ob a).heap = ob.heap ∧
    (addOrderAddr ob a).Orders = mapInsert (heapGet ob a).OrderID a ob.Orders ∧
    (addOrderAddr ob a).LastTradedPrice = ob.LastTradedPrice ∧
    getTreeB (addOrderAddr ob a) (!decide ((heapGet ob a).Side = "buy"))
      = getTreeB ob (!decide ((heapGet ob a).Side = "buy")) ∧
    SortedT (decide ((heapGet ob a).Side = "buy"))
      (getTreeB (addOrderAddr ob a) (decide ((heapGet ob a).Side = "buy"))) ∧
    ∃ t₁ t₂ os sd,
      (∀ l ∈ t₁ ++ t₂, l.Price ≠ (heapGet ob a).Price) ∧
      getTreeB (addOrderAddr ob a) (decide ((heapGet ob a).Side = "buy"))
        = t₁ ++ ⟨(heapGet ob a).Price, os ++ [a], sd⟩ :: t₂ ∧
      ((os = [] ∧ sd = (heapGet ob a).Side ∧
          getTreeB ob (decide ((heapGet ob a).Side = "buy")) = t₁ ++ t₂) ∨
       getTreeB ob (decide ((heapGet ob a).Side = "buy"))
          = t₁ ++ ⟨(heapGet ob a).Price, os, sd⟩ :: t₂) := by
  set o := heapGet ob a with ho
  set b := decide (o.Side = "buy") with hbdef
  set t := getTreeB ob b with ht
  cases hfind : treeFind t o.Price with
  | none =>
    have hres : addOrderAddr ob a =
        setTreeB { ob with Orders := mapInsert o.OrderID a ob.Orders } b
          (treeInsert b ⟨o.Price, [a], o.Side⟩ t) := by
      rw [addOrderAddr]
      rw [show getTreeB { ob with Orders := mapInsert (heapGet ob a).OrderID a ob.Orders }
            (decide ((heapGet ob a).Side = "buy")) = t from getTreeB_withOrders ob _ _]
      rw [← ho, ← hbdef, hfind]
    obtain ⟨t₁, t₂, hteq, hins⟩ := treeInsert_fresh b hfind ⟨o.Price, [a], o.Side⟩ rfl
    rw [hres]
    refine ⟨setTreeB_heap _ _ _, by rw [setTreeB_Orders], setTreeB_ltp _ _ _, ?_, ?_, ?_⟩
    · rw [getTreeB_setTreeB_other, getTreeB_withOrders]
    · rw [getTreeB_setTreeB_same]
      exact treeInsert_sorted b _ hs
    · refine ⟨t₁, t₂, [], o.Side, ?_, ?_, Or.inl ⟨rfl, rfl, hteq⟩⟩
      · intro l hl
        exact treeFind_none.mp hfind l (hteq ▸ hl)
      · rw [getTreeB_setTreeB_same, hins]
        rfl
  | some lvl =>
    have hres : addOrderAddr ob a =
        setTreeB { ob with Orders := mapInsert o.OrderID a ob.Orders } b
          (treeInsert b { lvl with Orders := lvl.Orders ++ [a] } t) := by
      rw [addOrderAddr]
      rw [show getTreeB { ob with Orders := mapInsert (heapGet ob a).OrderID a ob.Orders }
            (decide ((heapGet ob a).Side = "buy")) = t from getTreeB_withOrders ob _ _]
      rw [← ho, ← hbdef, hfind]
    obtain ⟨t₁, t₂, hteq, hins, _hbetter, hne⟩ :=
      treeInsert_replace b hs hfind { lvl with Orders := lvl.Orders ++ [a] }
        (treeFind_some hfind).2
    obtain ⟨lp, los, lsd⟩ := lvl
    have hlp : lp = o.Price := (treeFind_some hfind).2
    subst hlp
    rw [hres]
    refine ⟨setTreeB_heap _ _ _, by rw [setTreeB_Orders], setTreeB_ltp _ _ _, ?_, ?_, ?_⟩
    · rw [getTreeB_setTreeB_other, getTreeB_withOrders]
    · rw [getTreeB_setTreeB_same]
      exact treeInsert_sorted b _ hs
    · refine ⟨t₁, t₂, los, lsd, hne, ?_, Or.inr hteq⟩
      rw [getTreeB_setTreeB_same, hins]

theorem getTreeB_withHeap (ob : OrderBook) (h : List Order) (buy : Bool) :
    getTreeB { ob with heap := h } buy = getTreeB ob buy := by
  cases buy <;> rfl

theorem bool_eq_or (x y : Bool) : x = y ∨ x = !y := by
  cases x <;> cases y <;> simp

theorem sideOK_decide (s : String) : sideOK (decide (s = "buy")) s := by
  by_cases h : s = "buy" <;> simp [sideOK, h]

/-- Reassembling the full invariant after one order has been admitted at a
fresh address `a` (the single new address appears once in the levels, and the
map gained exactly its binding). -/
theorem WF_insert_assemble (ob result : OrderBook) (a : ℕ) (X Y : List ℕ)
    (hallob : allAddrs ob = X ++ Y)
    (hallres : allAddrs result = X ++ a :: Y)
    (hheap : result.heap = ob.heap)
    (hord : result.Orders = mapInsert (heapGet ob a).OrderID a ob.Orders)
    (hsorted : ∀ buy, SortedT buy (getTreeB result buy))
    (hlevel : ∀ buy, ∀ lvl ∈ getTreeB result buy, levelOK result buy lvl)
    (hnd : (allAddrs ob).Nodup)
    (hidnd : ((allAddrs ob).map (fun x => (heapGet ob x).OrderID)).Nodup)
    (hk : (ob.Orders.map Prod.fst).Nodup)
    (hafresh : a ∉ allAddrs ob)
    (hidfresh : ∀ x ∈ allAddrs ob, (heapGet ob x).OrderID ≠ (heapGet ob a).OrderID)
    (hm1 : ∀ e ∈ ob.Orders, (heapGet ob e.2).OrderID = e.1 ∧ (e.2 ∈ allAddrs ob ∨ e.2 = a))
    (hm2 : ∀ x ∈ allAddrs ob, mapGet ob.Orders (heapGet ob x).OrderID = some x) :
    WF result := by
  have hget := heapGet_congr hheap
  refine ⟨hsorted true, hsorted false, hlevel true, hlevel false, ?_, ?_, ?_, ?_, ?_⟩
  · rw [hallres]
    exact nodup_insert_middle (hallob ▸ hnd) (hallob ▸ hafresh)
  · rw [hallres]
    simp only [hget]
    rw [List.map_append, List.map_cons]
    apply nodup_insert_middle
    · rw [← List.map_append, ← hallob]
      exact hidnd
    · intro hc
      rw [← List.map_append] at hc
      obtain ⟨x, hx, hxx⟩ := List.mem_map.mp hc
      exact hidfresh x (hallob ▸ hx) hxx
  · rw [hord]
    exact mapInsert_keys_nodup _ _ _ hk
  · intro e he
    rw [hord] at he
    rcases mapInsert_mem _ _ _ _ he with rfl | hmem
    · refine ⟨?_, by rw [hget]⟩
      rw [hallres]
      exact mem_middle_iff.mpr (Or.inl rfl)
    · obtain ⟨hid, hmemor⟩ := hm1 e hmem
      refine ⟨?_, by rw [hget]; exact hid⟩
      rw [hallres]
      apply mem_middle_iff.mpr
      rcases hmemor with h | h
      · exact Or.inr (hallob ▸ h)
      · exact Or.inl h
  · intro x hx
    rw [hallres] at hx
    rw [hord]
    rcases mem_middle_iff.mp hx with rfl | hx2
    · rw [hget]
      exact mapGet_mapInsert_self _ _ _
    · have hxo : x ∈ allAddrs ob := by rw [hallob]; exact hx2
      rw [hget, mapGet_mapInsert_ne _ _ _ _ (hidfresh x hxo)]
      exact hm2 x hxo

theorem mem_allAddrs_of_level {ob : OrderBook} {buy : Bool} {lvl : PriceLevel} {x : ℕ}
    (hl : lvl ∈ getTreeB ob buy) (hx : x ∈ lvl.Orders) : x ∈ allAddrs ob := by
  apply (mem_allAddrs_iff ob x).mpr
  cases buy
  · exact Or.inr (mem_treeAddrs.mpr ⟨lvl, hl, hx⟩)
  · exact Or.inl (mem_treeAddrs.mpr ⟨lvl, hl, hx⟩)

theorem allAddrs_withHeap (ob : OrderBook) (h : List Order) :
    allAddrs { ob with heap := h } = allAddrs ob := rfl

/-- Admitting a fresh-id order preserves the consistency invariant. -/
theorem AddOrder_WF {ob : OrderBook} {o : Order} (hwf : WF ob)
    (hfresh : mapGet ob.Orders o.OrderID = none) : WF (AddOrder ob o) := by
  obtain ⟨htre, hmap⟩ := (WF_iff ob).mp hwf
  have hval : ∀ x ∈ allAddrs ob, x < ob.heap.length := treesOK_valid htre
  set n := ob.heap.length with hn
  set obE : OrderBook := { ob with heap := ob.heap ++ [o] } with hobE
  have hgs : ∀ x ∈ allAddrs ob, heapGet obE x = heapGet ob x :=
    fun x hx => heapGetL_append _ _ _ (hval x hx)
  have hga : heapGet obE n = o := heapGetL_append_self _ _
  have hsor : ∀ buy, SortedT buy (getTreeB obE buy) := by
    intro buy
    rw [hobE, getTreeB_withHeap]
    exact treesOK_sorted htre buy
  obtain ⟨hh, hoo, _hltp, hothers, hsb, t₁, t₂, os, sd, hne, hres, hcases⟩ :=
    addOrderAddr_decomp obE n (hsor _)
  set b := decide ((heapGet obE n).Side = "buy") with hb
  set res := addOrderAddr obE n with hresdef
  have hbo : b = decide (o.Side = "buy") := by rw [hb, hga]
  have hto : ∀ buy, getTreeB obE buy = getTreeB ob buy := by
    intro buy
    rw [hobE, getTreeB_withHeap]
  have hgr : ∀ x, heapGet res x = heapGet obE x := heapGet_congr hh
  have hlenE : ob.heap.length ≤ obE.heap.length := by
    rw [hobE]
    simp
  have hreslen : res.heap.length = obE.heap.length := by rw [hh]
  -- the one new level
  have hPrice : (heapGet obE n).Price = o.Price := by rw [hga]
  -- transported level consistency for old levels
  have hlevold : ∀ buy, ∀ lvl ∈ getTreeB ob buy, levelOK res buy lvl := by
    intro buy lvl hlvl
    refine levelOK_transport (treesOK_level htre buy lvl hlvl) (hreslen ▸ hlenE) ?_
    intro x hx
    rw [hgr x]
    exact hgs x (mem_allAddrs_of_level hlvl hx)
  -- side of the new order
  have hsideok : sideOK b (heapGet obE n).Side := by
    rw [hga, hbo]
    exact sideOK_decide o.Side
  -- id freshness against all resting orders
  have hidfresh : ∀ x ∈ allAddrs obE, (heapGet obE x).OrderID ≠ (heapGet obE n).OrderID := by
    intro x hx hc
    rw [allAddrs_withHeap] at hx
    rw [hgs x hx, hga] at hc
    have := hmap.2.2 x hx
    rw [hc] at this
    rw [hfresh] at this
    exact Option.noConfusion this
  have hafreshE : n ∉ allAddrs obE := by
    rw [allAddrs_withHeap]
    intro hc
    exact absurd (hval n hc) (lt_irrefl n)
  -- level consistency of the result book
  have hlevres : ∀ buy, ∀ lvl ∈ getTreeB res buy, levelOK res buy lvl := by
    intro buy lvl hlvl
    rcases bool_eq_or buy b with rfl | rfl
    · rw [hres] at hlvl
      rcases mem_middle_iff.mp hlvl with rfl | hlvl2
      · -- the modified/new level
        have hsdok : sideOK b sd := by
          rcases hcases with ⟨_, hsd, _⟩ | hteq
          · rw [hsd]
            exact hsideok
          · have hmemold : (⟨(heapGet obE n).Price, os, sd⟩ : PriceLevel) ∈ getTreeB ob b := by
              rw [← hto b, hteq]
              exact List.mem_append.mpr (Or.inr (List.mem_cons_self _ _))
            exact (treesOK_level htre b _ hmemold).2.1
        refine ⟨by simp, hsdok, ?_⟩
        intro x hx
        rcases List.mem_append.mp hx with hxos | hxn
        · -- an old member of the level
          rcases hcases with ⟨hos, _, _⟩ | hteq
          · rw [hos] at hxos
            simp at hxos
          · have hmemold : ⟨(heapGet obE n).Price, os, sd⟩ ∈ getTreeB ob b := by
              rw [← hto b, hteq]
              exact List.mem_append.mpr (Or.inr (List.mem_cons_self _ _))
            have hok := treesOK_level htre b _ hmemold
            obtain ⟨hv, hp, hsd2⟩ := hok.2.2 x hxos
            have hxall : x ∈ allAddrs ob := mem_allAddrs_of_level hmemold hxos
            refine ⟨by rw [hreslen]; exact lt_of_lt_of_le hv hlenE, ?_, ?_⟩
            · rw [hgr x, hgs x hxall]
              exact hp
            · rw [hgr x, hgs x hxall]
              exact hsd2
        · obtain rfl : x = n := by simpa using hxn
          refine ⟨?_, ?_, ?_⟩
          · rw [hreslen, hobE]
            simp [hn]
          · rw [hgr n]
          · rw [hgr n]
            exact hsideok
      · -- untouched levels of the same side
        apply hlevold
        rw [← hto b]
        rcases hcases with ⟨_, _, hteq⟩ | hteq
        · rw [hteq]
          exact hlvl2
        · rw [hteq]
          rcases List.mem_append.mp hlvl2 with h1 | h2
          · exact List.mem_append.mpr (Or.inl h1)
          · exact List.mem_append.mpr (Or.inr (List.mem_cons_of_mem _ h2))
    · apply hlevold
      rw [← hto (!b), ← hothers]
      exact hlvl
  -- sortedness of the result book
  have hsorres : ∀ buy, SortedT buy (getTreeB res buy) := by
    intro buy
    rcases bool_eq_or buy b with rfl | rfl
    · exact hsb
    · rw [hothers]
      exact hsor (!b)
  -- the address decomposition
  have hXY : ∃ X Y : List ℕ, allAddrs obE = X ++ Y ∧ allAddrs res = X ++ n :: Y := by
    rcases hcases with ⟨hos, _, hteq⟩ | hteq
    · obtain ⟨pre, post, h1, h2⟩ := @allAddrs_decomp_of_trees obE res b _ _
        hothers (by rw [hteq, treeAddrs_append]) (by rw [hres, treeAddrs_append, treeAddrs_cons])
      refine ⟨pre ++ treeAddrs t₁, treeAddrs t₂ ++ post, ?_, ?_⟩
      · rw [h1]
        simp [List.append_assoc]
      · rw [h2, hos]
        simp [List.append_assoc]
    · obtain ⟨pre, post, h1, h2⟩ := @allAddrs_decomp_of_trees obE res b _ _
        hothers (by rw [hteq, treeAddrs_append, treeAddrs_cons])
        (by rw [hres, treeAddrs_append, treeAddrs_cons])
      refine ⟨pre ++ (treeAddrs t₁ ++ os), treeAddrs t₂ ++ post, ?_, ?_⟩
      · rw [h1]
        simp [List.append_assoc]
      · rw [h2]
        simp [List.append_assoc]
  obtain ⟨X, Y, hallob, hallres⟩ := hXY
  -- assemble
  show WF res
  refine WF_insert_assemble obE res n X Y hallob hallres hh
    (by rw [hoo, hobE]) hsorres hlevres ?_ ?_ ?_ hafreshE hidfresh ?_ ?_
  · rw [allAddrs_withHeap]
    exact htre.2.2.2.2.1
  · rw [allAddrs_withHeap]
    have hmapeq : List.map (fun x => (heapGet obE x).OrderID) (allAddrs ob)
        = List.map (fun x => (heapGet ob x).OrderID) (allAddrs ob) :=
      List.map_congr_left (fun x hx => by rw [hgs x hx])
    rw [hmapeq]
    exact htre.2.2.2.2.2
  · rw [hobE]
    exact hmap.1
  · intro e he
    rw [hobE] at he
    obtain ⟨hmem, hid⟩ := hmap.2.1 e he
    rw [allAddrs_withHeap]
    exact ⟨by rw [hgs e.2 hmem]; exact hid, Or.inl hmem⟩
  · intro x hx
    rw [allAddrs_withHeap] at hx
    rw [hgs x hx, hobE]
    exact hmap.2.2 x hx

theorem level_orders_sublist {ob : OrderBook} {buy : Bool} {lvl : PriceLevel}
    (hl : lvl ∈ getTreeB ob buy) : lvl.Orders.Sublist (allAddrs ob) := by
  have hsub : lvl.Orders.Sublist (treeAddrs (getTreeB ob buy)) :=
    List.sublist_flatten_of_mem (List.mem_map_of_mem PriceLevel.Orders hl)
  rw [allAddrs_eq]
  cases buy
  · exact hsub.trans (List.sublist_append_right _ _)
  · exact hsub.trans (List.sublist_append_left _ _)

theorem level_orders_nodup {ob : OrderBook} (htre : TreesOK ob) {buy : Bool}
    {lvl : PriceLevel} (hl : lvl ∈ getTreeB ob buy) : lvl.Orders.Nodup :=
  (level_orders_sublist hl).nodup htre.2.2.2.2.1

/-- The resting address `a` lies in the tree of its own order's side. -/
theorem locate_addr {ob : OrderBook} (htre : TreesOK ob) {a : ℕ}
    (hmem : a ∈ allAddrs ob) :
    ∃ lvl ∈ getTreeB ob (decide ((heapGet ob a).Side = "buy")), a ∈ lvl.Orders := by
  have hside : ∀ buy : Bool, ∀ lvl ∈ getTreeB ob buy, a ∈ lvl.Orders →
      buy = decide ((heapGet ob a).Side = "buy") := by
    intro buy lvl hl hx
    exact sideOK_eq ((treesOK_level htre buy lvl hl).2.2 a hx).2.2
  rcases (mem_allAddrs_iff ob a).mp hmem with h | h
  · obtain ⟨lvl, hl, hx⟩ := mem_treeAddrs.mp h
    exact ⟨lvl, (hside true lvl hl hx) ▸ hl, hx⟩
  · obtain ⟨lvl, hl, hx⟩ := mem_treeAddrs.mp h
    exact ⟨lvl, (hside false lvl hl hx) ▸ hl, hx⟩

/-- Shape of `removeOrder`: on a consistent book, removing a resting order
splices exactly its address out of its own level (deleting the level if that
empties it); heap, map, last traded price and the other side are untouched. -/
theorem removeOrderAddr_decomp (ob : OrderBook) (a : ℕ)
    (htre : TreesOK ob)
    (hidnd : ((allAddrs ob).map (fun x => (heapGet ob x).OrderID)).Nodup)
    (hmem : a ∈ allAddrs ob) :
    (removeOrderAddr ob a).heap = ob.heap ∧
    (removeOrderAddr ob a).Orders = ob.Orders ∧
    (removeOrderAddr ob a).LastTradedPrice = ob.LastTradedPrice ∧
    getTreeB (removeOrderAddr ob a) (!decide ((heapGet ob a).Side = "buy"))
      = getTreeB ob (!decide ((heapGet ob a).Side = "buy")) ∧
    SortedT (decide ((heapGet ob a).Side = "buy"))
      (getTreeB (removeOrderAddr ob a) (decide ((heapGet ob a).Side = "buy"))) ∧
    ∃ t₁ t₂ os₁ os₂ sd,
      getTreeB ob (decide ((heapGet ob a).Side = "buy"))
        = t₁ ++ ⟨(heapGet ob a).Price, os₁ ++ a :: os₂, sd⟩ :: t₂ ∧
      getTreeB (removeOrderAddr ob a) (decide ((heapGet ob a).Side = "buy"))
        = (if os₁ ++ os₂ = [] then t₁ ++ t₂
           else t₁ ++ ⟨(heapGet ob a).Price, os₁ ++ os₂, sd⟩ :: t₂) := by
  obtain ⟨lvl, hlvl, halvl⟩ := locate_addr htre hmem
  set b := decide ((heapGet ob a).Side = "buy") with hb
  have hsort : SortedT b (getTreeB ob b) := treesOK_sorted htre b
  have hp : (heapGet ob a).Price = lvl.Price :=
    ((treesOK_level htre b lvl hlvl).2.2 a halvl).2.1
  have hfind : treeFind (getTreeB ob b) (heapGet ob a).Price = some lvl := by
    rw [hp]
    exact treeFind_of_sorted_mem hsort hlvl
  obtain ⟨os₁, os₂, hsplit⟩ := List.append_of_mem halvl
  have hnodup : lvl.Orders.Nodup := level_orders_nodup htre hlvl
  have hanotin : a ∉ os₁ ++ os₂ := by
    rw [hsplit] at hnodup
    exact (nodup_remove_middle hnodup).2
  have hremove : removeFirstID ob.heap (heapGet ob a).OrderID lvl.Orders
      = some (os₁ ++ os₂) := by
    rw [hsplit]
    refine removeFirstID_spec _ _ _ _ _ ?_ rfl
    intro x hx hc
    have hxl : x ∈ lvl.Orders := by
      rw [hsplit]
      exact List.mem_append.mpr (Or.inl hx)
    have hxa : x ∈ allAddrs ob := mem_allAddrs_of_level hlvl hxl
    have := List.inj_on_of_nodup_map hidnd hxa hmem hc
    subst this
    exact hanotin (List.mem_append.mpr (Or.inl hx))
  have hreseq : removeOrderAddr ob a =
      (if os₁ ++ os₂ = [] then setTreeB ob b (treeDelete lvl.Price (getTreeB ob b))
       else setTreeB ob b (treeInsert b { lvl with Orders := os₁ ++ os₂ } (getTreeB ob b))) := by
    rw [removeOrderAddr, ← hb, hfind]
    simp only [hremove]
  obtain ⟨t₁, t₂, hteq, htne⟩ := treeFind_decomp hfind
  have hlvleta : lvl = ⟨(heapGet ob a).Price, os₁ ++ a :: os₂, lvl.Side⟩ := by
    rw [hp, ← hsplit]
  by_cases hempty : os₁ ++ os₂ = []
  · have hdel : treeDelete lvl.Price (getTreeB ob b) = t₁ ++ t₂ := by
      rw [hteq]
      refine treeDelete_of_decomp _ _ _ _ ?_ rfl
      intro l hl
      intro hc
      exact htne l hl (hc.trans hp.symm)
    rw [hreseq, if_pos hempty]
    refine ⟨setTreeB_heap _ _ _, setTreeB_Orders _ _ _, setTreeB_ltp _ _ _, ?_, ?_, ?_⟩
    · rw [getTreeB_setTreeB_other]
    · rw [getTreeB_setTreeB_same, hdel]
      exact List.Pairwise.sublist
        (List.Sublist.append (List.Sublist.refl t₁) (List.sublist_cons_self lvl t₂))
        (hteq ▸ hsort)
    · refine ⟨t₁, t₂, os₁, os₂, lvl.Side, ?_, ?_⟩
      · rw [← hlvleta]
        exact hteq
      · rw [getTreeB_setTreeB_same, hdel, if_pos hempty]
  · have hprefix : ∀ l ∈ t₁, priceBetter b l.Price lvl.Price = true := by
      have := hteq ▸ hsort
      rw [SortedT, List.pairwise_append] at this
      intro l hl
      exact this.2.2 l hl lvl (List.mem_cons_self _ _)
    have hins : treeInsert b { lvl with Orders := os₁ ++ os₂ } (getTreeB ob b)
        = t₁ ++ { lvl with Orders := os₁ ++ os₂ } :: t₂ := by
      rw [hteq]
      exact treeInsert_at b _ lvl t₁ t₂ hprefix rfl
    rw [hreseq, if_neg hempty]
    refine ⟨setTreeB_heap _ _ _, setTreeB_Orders _ _ _, setTreeB_ltp _ _ _, ?_, ?_, ?_⟩
    · rw [getTreeB_setTreeB_other]
    · rw [getTreeB_setTreeB_same]
      exact treeInsert_sorted b _ hsort
    · refine ⟨t₁, t₂, os₁, os₂, lvl.Side, ?_, ?_⟩
      · rw [← hlvleta]
        exact hteq
      · rw [getTreeB_setTreeB_same, hins, if_neg hempty]
        have heq2 : ({ lvl with Orders := os₁ ++ os₂ } : PriceLevel)
            = ⟨(heapGet ob a).Price, os₁ ++ os₂, lvl.Side⟩ := by
          rw [hp]
        rw [heq2]

/-- `removeOrder` followed by deleting the id from the lookup map (the
combination used by `RemoveOrder`, `ModifyOrderQuantity` at zero, and
`MatchOrders`); it preserves the invariant and removes exactly one resting
address. -/
theorem removeAndDelete_WF (ob res : OrderBook) (id : String) (a : ℕ)
    (hwf : WF ob) (hm : mapGet ob.Orders id = some a)
    (hres : res = { removeOrderAddr ob a with
                    Orders := mapDelete id (removeOrderAddr ob a).Orders }) :
    WF res ∧ res.heap = ob.heap ∧ res.LastTradedPrice = ob.LastTradedPrice ∧
    addrCount ob = addrCount res + 1 ∧
    a ∉ allAddrs res ∧
    (∀ x ∈ allAddrs res, x ∈ allAddrs ob) ∧
    (∀ x ∈ allAddrs ob, x ≠ a → x ∈ allAddrs res) ∧
    mapGet res.Orders id = none ∧
    (∀ id2, id2 ≠ id → mapGet res.Orders id2 = mapGet ob.Orders id2) := by
  obtain ⟨htre, hmap⟩ := (WF_iff ob).mp hwf
  obtain ⟨ha, hida⟩ := hmap.2.1 (id, a) (mapGet_eq_some_mem _ _ _ hm)
  obtain ⟨hh, ho, hltp, hother, hsortb, t₁, t₂, os₁, os₂, sd, hteq, hteqres⟩ :=
    removeOrderAddr_decomp ob a htre htre.2.2.2.2.2 ha
  set b := decide ((heapGet ob a).Side = "buy") with hb
  set ob1 := removeOrderAddr ob a with hob1
  -- trees of `res` agree with those of `ob1`
  have hrest : ∀ buy, getTreeB res buy = getTreeB ob1 buy := by
    intro buy
    rw [hres]
    exact getTreeB_withOrders ob1 _ buy
  have hresheap : res.heap = ob1.heap := by rw [hres]
  have hgres : ∀ x, heapGet res x = heapGet ob x := by
    intro x
    rw [heapGet_congr hresheap x, heapGet_congr hh x]
  have hallres : allAddrs res = allAddrs ob1 := by
    rw [allAddrs_eq, allAddrs_eq, hrest, hrest]
  -- the one-address decomposition of the resting addresses
  have hXY : ∃ X Y : List ℕ, allAddrs ob = X ++ a :: Y ∧ allAddrs ob1 = X ++ Y := by
    by_cases hempty : os₁ ++ os₂ = []
    · obtain ⟨hos₁, hos₂⟩ := List.append_eq_nil.mp hempty
      subst hos₁
      subst hos₂
      obtain ⟨pre, post, h1, h2⟩ := @allAddrs_decomp_of_trees ob ob1 b _ _
        hother (by rw [hteq, treeAddrs_append, treeAddrs_cons])
        (by rw [hteqres, if_pos hempty, treeAddrs_append])
      refine ⟨pre ++ treeAddrs t₁, treeAddrs t₂ ++ post, ?_, ?_⟩
      · rw [h1]
        simp [List.append_assoc]
      · rw [h2]
        simp [List.append_assoc]
    · obtain ⟨pre, post, h1, h2⟩ := @allAddrs_decomp_of_trees ob ob1 b _ _
        hother (by rw [hteq, treeAddrs_append, treeAddrs_cons])
        (by rw [hteqres, if_neg hempty, treeAddrs_append, treeAddrs_cons])
      refine ⟨pre ++ (treeAddrs t₁ ++ os₁), os₂ ++ (treeAddrs t₂ ++ post), ?_, ?_⟩
      · rw [h1]
        simp [List.append_assoc]
      · rw [h2]
        simp [List.append_assoc]
  obtain ⟨X, Y, hallob, hallob1⟩ := hXY
  have hsubl : (allAddrs ob1).Sublist (allAddrs ob) := by
    rw [hallob, hallob1]
    exact List.Sublist.append (List.Sublist.refl X) (List.sublist_cons_self a Y)
  have hnotin : a ∉ allAddrs ob1 := by
    rw [hallob1]
    exact (nodup_remove_middle (hallob ▸ htre.2.2.2.2.1)).2
  have hmemof : ∀ x ∈ allAddrs ob1, x ∈ allAddrs ob := fun x hx => hsubl.subset hx
  have hmemto : ∀ x ∈ allAddrs ob, x ≠ a → x ∈ allAddrs ob1 := by
    intro x hx hne
    rw [hallob] at hx
    rw [hallob1]
    rcases mem_middle_iff.mp hx with rfl | h2
    · exact absurd rfl hne
    · exact h2
  have hkeys : (ob.Orders.map Prod.fst).Nodup := hmap.1
  have hreso : res.Orders = mapDelete id ob.Orders := by
    rw [hres, ho]
  -- level consistency of `res`
  have hlevres : ∀ buy, ∀ lvl ∈ getTreeB res buy, levelOK res buy lvl := by
    have htransport : ∀ buy, ∀ lvl ∈ getTreeB ob buy, levelOK res buy lvl := by
      intro buy lvl hl
      refine levelOK_transport (treesOK_level htre buy lvl hl) ?_ ?_
      · rw [hresheap, hh]
      · intro x _
        exact hgres x
    intro buy lvl hl
    rw [hrest] at hl
    rcases bool_eq_or buy b with rfl | rfl
    · have holdlvl : (⟨(heapGet ob a).Price, os₁ ++ a :: os₂, sd⟩ : PriceLevel)
          ∈ getTreeB ob b := by
        rw [hteq]
        exact List.mem_append.mpr (Or.inr (List.mem_cons_self _ _))
      have holdok := treesOK_level htre b _ holdlvl
      rw [hteqres] at hl
      by_cases hempty : os₁ ++ os₂ = []
      · rw [if_pos hempty] at hl
        apply htransport
        rw [hteq]
        rcases List.mem_append.mp hl with h1 | h2
        · exact List.mem_append.mpr (Or.inl h1)
        · exact List.mem_append.mpr (Or.inr (List.mem_cons_of_mem _ h2))
      · rw [if_neg hempty] at hl
        rcases mem_middle_iff.mp hl with rfl | h2
        · refine ⟨hempty, holdok.2.1, ?_⟩
          intro x hx
          have hxold : x ∈ os₁ ++ a :: os₂ := by
            rcases List.mem_append.mp hx with h | h
            · exact List.mem_append.mpr (Or.inl h)
            · exact List.mem_append.mpr (Or.inr (List.mem_cons_of_mem _ h))
          obtain ⟨hv, hp2, hsd2⟩ := holdok.2.2 x hxold
          refine ⟨?_, ?_, ?_⟩
          · rw [hresheap, hh]
            exact hv
          · rw [hgres x]
            exact hp2
          · rw [hgres x]
            exact hsd2
        · apply htransport
          rw [hteq]
          rcases List.mem_append.mp h2 with h1 | h1
          · exact List.mem_append.mpr (Or.inl h1)
          · exact List.mem_append.mpr (Or.inr (List.mem_cons_of_mem _ h1))
    · apply htransport
      rw [← hother]
      exact hl
  have hwfres : WF res := by
    refine ⟨?_, ?_, hlevres true, hlevres false, ?_, ?_, ?_, ?_, ?_⟩
    · show SortedT true (getTreeB res true)
      rw [hrest true]
      rcases bool_eq_or true b with h | h
      · rw [← h] at hsortb
        exact hsortb
      · rw [show getTreeB ob1 true = getTreeB ob true from by rw [h]; exact hother]
        exact treesOK_sorted htre true
    · show SortedT false (getTreeB res false)
      rw [hrest false]
      rcases bool_eq_or false b with h | h
      · rw [← h] at hsortb
        exact hsortb
      · rw [show getTreeB ob1 false = getTreeB ob false from by rw [h]; exact hother]
        exact treesOK_sorted htre false
    · rw [hallres]
      exact hsubl.nodup htre.2.2.2.2.1
    · rw [hallres]
      have hmapeq : List.map (fun x => (heapGet res x).OrderID) (allAddrs ob1)
          = List.map (fun x => (heapGet ob x).OrderID) (allAddrs ob1) :=
        List.map_congr_left (fun x _ => by rw [hgres x])
      rw [hmapeq]
      exact (hsubl.map _).nodup htre.2.2.2.2.2
    · rw [hreso]
      exact ((mapDelete_sublist id ob.Orders).map Prod.fst).nodup hkeys
    · intro e he
      rw [hreso] at he
      have hemem : e ∈ ob.Orders := (mapDelete_sublist id ob.Orders).subset he
      have hene : e.1 ≠ id := mapDelete_mem_ne _ _ _ hkeys he
      obtain ⟨hea, heid⟩ := hmap.2.1 e hemem
      have hea2 : e.2 ≠ a := by
        intro hc
        apply hene
        rw [← heid, hc, hida]
      refine ⟨?_, by rw [hgres]; exact heid⟩
      rw [hallres]
      exact hmemto e.2 hea hea2
    · intro x hx
      rw [hallres] at hx
      have hxo : x ∈ allAddrs ob := hmemof x hx
      have hxne : (heapGet ob x).OrderID ≠ id := by
        intro hc
        have h1 := hmap.2.2 x hxo
        rw [hc, hm] at h1
        obtain rfl := Option.some.inj h1
        exact hnotin hx
      rw [hgres x, hreso, mapGet_mapDelete_ne _ _ _ hxne]
      exact hmap.2.2 x hxo
  refine ⟨hwfres, by rw [hresheap, hh], by rw [hres]; rw [show ({ removeOrderAddr ob a with
      Orders := mapDelete id (removeOrderAddr ob a).Orders } : OrderBook).LastTradedPrice
      = ob1.LastTradedPrice from rfl, hltp], ?_, ?_, ?_, ?_, ?_, ?_⟩
  · rw [addrCount, addrCount, hallres, hallob, hallob1]
    simp only [List.length_append, List.length_cons]
    omega
  · rw [hallres]
    exact hnotin
  · intro x hx
    rw [hallres] at hx
    exact hmemof x hx
  · intro x hx hne
    rw [hallres]
    exact hmemto x hx hne
  · rw [hreso]
    exact mapGet_mapDelete_self _ _ hkeys
  · intro id2 h2
    rw [hreso]
    exact mapGet_mapDelete_ne _ _ _ h2

/-! ### Heap mutation and the invariant -/

theorem getTreeB_heapSet (ob : OrderBook) (a : ℕ) (o : Order) (buy : Bool) :
    getTreeB (heapSet ob a o) buy = getTreeB ob buy := by
  cases buy <;> rfl

theorem allAddrs_heapSet (ob : OrderBook) (a : ℕ) (o : Order) :
    allAddrs (heapSet ob a o) = allAddrs ob := rfl

theorem heapSet_length (ob : OrderBook) (a : ℕ) (o : Order) :
    (heapSet ob a o).heap.length = ob.heap.length :=
  List.length_set _ _ _

/-- Overwriting a heap cell with an order of the same id, price and side
preserves the invariant (only the quantity may change). -/
theorem heapSet_WF {ob : OrderBook} {a : ℕ} {o : Order} (hwf : WF ob)
    (hid : o.OrderID = (heapGet ob a).OrderID) (hp : o.Price = (heapGet ob a).Price)
    (hsd : o.Side = (heapGet ob a).Side) : WF (heapSet ob a o) := by
  have hfields : ∀ x, ((heapGet (heapSet ob a o) x).OrderID = (heapGet ob x).OrderID ∧
      (heapGet (heapSet ob a o) x).Price = (heapGet ob x).Price ∧
      (heapGet (heapSet ob a o) x).Side = (heapGet ob x).Side) := by
    intro x
    by_cases hx : a = x
    · subst hx
      by_cases hv : a < ob.heap.length
      · rw [heapSet_get_self ob a o hv]
        exact ⟨hid, hp, hsd⟩
      · have hnoop : ob.heap.set a o = ob.heap :=
          List.set_eq_of_length_le (le_of_not_lt hv)
        rw [show heapGet (heapSet ob a o) a = heapGet ob a from by
          rw [heapGet, heapSet]
          show heapGetL (ob.heap.set a o) a = heapGetL ob.heap a
          rw [hnoop]]
        exact ⟨rfl, rfl, rfl⟩
    · rw [heapSet_get_ne ob a x o hx]
      exact ⟨rfl, rfl, rfl⟩
  obtain ⟨hs1, hs2, hl1, hl2, hnd, hidnd, hk, hm1, hm2⟩ := hwf
  refine ⟨hs1, hs2, ?_, ?_, hnd, ?_, hk, ?_, ?_⟩
  · intro lvl hl
    obtain ⟨hne, hsd2, hmem⟩ := hl1 lvl hl
    refine ⟨hne, hsd2, fun x hx => ?_⟩
    obtain ⟨hv, hpp, hss⟩ := hmem x hx
    rw [heapSet_length]
    exact ⟨hv, ((hfields x).2.1).trans hpp, by rw [(hfields x).2.2]; exact hss⟩
  · intro lvl hl
    obtain ⟨hne, hsd2, hmem⟩ := hl2 lvl hl
    refine ⟨hne, hsd2, fun x hx => ?_⟩
    obtain ⟨hv, hpp, hss⟩ := hmem x hx
    rw [heapSet_length]
    exact ⟨hv, ((hfields x).2.1).trans hpp, by rw [(hfields x).2.2]; exact hss⟩
  · show ((allAddrs ob).map (fun x => (heapGet (heapSet ob a o) x).OrderID)).Nodup
    have hmapeq : (allAddrs ob).map (fun x => (heapGet (heapSet ob a o) x).OrderID)
        = (allAddrs ob).map (fun x => (heapGet ob x).OrderID) :=
      List.map_congr_left (fun x _ => (hfields x).1)
    rw [hmapeq]
    exact hidnd
  · intro e he
    obtain ⟨hmem, hide⟩ := hm1 e he
    exact ⟨hmem, ((hfields e.2).1).trans hide⟩
  · intro x hx
    rw [(hfields x).1]
    exact hm2 x hx

/-- Shape of `removeOrder` together with its effect on the invariant pieces
(the map is untouched, so full `WF` is not yet restored when the caller is
about to delete or re-admit the order). -/
theorem removeOrderAddr_parts (ob : OrderBook) (a : ℕ) (hwf : WF ob)
    (hmem : a ∈ allAddrs ob) :
    (removeOrderAddr ob a).heap = ob.heap ∧
    (removeOrderAddr ob a).Orders = ob.Orders ∧
    (removeOrderAddr ob a).LastTradedPrice = ob.LastTradedPrice ∧
    (∃ X Y : List ℕ, allAddrs ob = X ++ a :: Y ∧ allAddrs (removeOrderAddr ob a) = X ++ Y) ∧
    (∀ buy, SortedT buy (getTreeB (removeOrderAddr ob a) buy)) ∧
    (∀ buy, ∀ lvl ∈ getTreeB (removeOrderAddr ob a) buy,
       levelOK (removeOrderAddr ob a) buy lvl) := by
  obtain ⟨htre, hmap⟩ := (WF_iff ob).mp hwf
  obtain ⟨hh, ho, hltp, hother, hsortb, t₁, t₂, os₁, os₂, sd, hteq, hteqres⟩ :=
    removeOrderAddr_decomp ob a htre htre.2.2.2.2.2 hmem
  set b := decide ((heapGet ob a).Side = "buy") with hb
  set ob1 := removeOrderAddr ob a with hob1
  have hgres : ∀ x, heapGet ob1 x = heapGet ob x := heapGet_congr hh
  have hXY : ∃ X Y : List ℕ, allAddrs ob = X ++ a :: Y ∧ allAddrs ob1 = X ++ Y := by
    by_cases hempty : os₁ ++ os₂ = []
    · obtain ⟨hos₁, hos₂⟩ := List.append_eq_nil.mp hempty
      subst hos₁
      subst hos₂
      obtain ⟨pre, post, h1, h2⟩ := @allAddrs_decomp_of_trees ob ob1 b _ _
        hother (by rw [hteq, treeAddrs_append, treeAddrs_cons])
        (by rw [hteqres, if_pos hempty, treeAddrs_append])
      refine ⟨pre ++ treeAddrs t₁, treeAddrs t₂ ++ post, ?_, ?_⟩
      · rw [h1]
        simp [List.append_assoc]
      · rw [h2]
        simp [List.append_assoc]
    · obtain ⟨pre, post, h1, h2⟩ := @allAddrs_decomp_of_trees ob ob1 b _ _
        hother (by rw [hteq, treeAddrs_append, treeAddrs_cons])
        (by rw [hteqres, if_neg hempty, treeAddrs_append, treeAddrs_cons])
      refine ⟨pre ++ (treeAddrs t₁ ++ os₁), os₂ ++ (treeAddrs t₂ ++ post), ?_, ?_⟩
      · rw [h1]
        simp [List.append_assoc]
      · rw [h2]
        simp [List.append_assoc]
  refine ⟨hh, ho, hltp, hXY, ?_, ?_⟩
  · intro buy
    rcases bool_eq_or buy b with rfl | rfl
    · exact hsortb
    · rw [hother]
      exact treesOK_sorted htre (!b)
  · have htransport : ∀ buy, ∀ lvl ∈ getTreeB ob buy, levelOK ob1 buy lvl := by
      intro buy lvl hl
      refine levelOK_transport (treesOK_level htre buy lvl hl) (le_of_eq (by rw [hh])) ?_
      intro x _
      exact hgres x
    intro buy lvl hl
    rcases bool_eq_or buy b with rfl | rfl
    · have holdlvl : (⟨(heapGet ob a).Price, os₁ ++ a :: os₂, sd⟩ : PriceLevel)
          ∈ getTreeB ob b := by
        rw [hteq]
        exact List.mem_append.mpr (Or.inr (List.mem_cons_self _ _))
      have holdok := treesOK_level htre b _ holdlvl
      rw [hteqres] at hl
      by_cases hempty : os₁ ++ os₂ = []
      · rw [if_pos hempty] at hl
        apply htransport
        rw [hteq]
        rcases List.mem_append.mp hl with h1 | h2
        · exact List.mem_append.mpr (Or.inl h1)
        · exact List.mem_append.mpr (Or.inr (List.mem_cons_of_mem _ h2))
      · rw [if_neg hempty] at hl
        rcases mem_middle_iff.mp hl with rfl | h2
        · refine ⟨hempty, holdok.2.1, ?_⟩
          intro x hx
          have hxold : x ∈ os₁ ++ a :: os₂ := by
            rcases List.mem_append.mp hx with h | h
            · exact List.mem_append.mpr (Or.inl h)
            · exact List.mem_append.mpr (Or.inr (List.mem_cons_of_mem _ h))
          obtain ⟨hv, hp2, hsd2⟩ := holdok.2.2 x hxold
          refine ⟨by rw [hh]; exact hv, by rw [hgres x]; exact hp2,
            by rw [hgres x]; exact hsd2⟩
        · apply htransport
          rw [hteq]
          rcases List.mem_append.mp h2 with h1 | h1
          · exact List.mem_append.mpr (Or.inl h1)
          · exact List.mem_append.mpr (Or.inr (List.mem_cons_of_mem _ h1))
    · apply htransport
      rw [← hother]
      exact hl

/-- `addOrderAddr` restores the invariant whenever the order at `a` is a
valid heap cell that is resting nowhere, its id is absent from the levels,
and the lookup map is consistent apart from possibly binding that id to `a`
already. -/
theorem addOrderAddr_WF_generic (ob : OrderBook) (a : ℕ)
    (hsor : ∀ buy, SortedT buy (getTreeB ob buy))
    (hlev : ∀ buy, ∀ lvl ∈ getTreeB ob buy, levelOK ob buy lvl)
    (hnd : (allAddrs ob).Nodup)
    (hidnd : ((allAddrs ob).map (fun x => (heapGet ob x).OrderID)).Nodup)
    (hk : (ob.Orders.map Prod.fst).Nodup)
    (hafresh : a ∉ allAddrs ob) (haval : a < ob.heap.length)
    (hidfresh : ∀ x ∈ allAddrs ob, (heapGet ob x).OrderID ≠ (heapGet ob a).OrderID)
    (hm1 : ∀ e ∈ ob.Orders, (heapGet ob e.2).OrderID = e.1 ∧ (e.2 ∈ allAddrs ob ∨ e.2 = a))
    (hm2 : ∀ x ∈ allAddrs ob, mapGet ob.Orders (heapGet ob x).OrderID = some x) :
    WF (addOrderAddr ob a) := by
  obtain ⟨hh, hoo, _hltp, hothers, hsb, t₁, t₂, os, sd, hne, hres, hcases⟩ :=
    addOrderAddr_decomp ob a (hsor _)
  set b := decide ((heapGet ob a).Side = "buy") with hb
  set res := addOrderAddr ob a with hresdef
  have hgr : ∀ x, heapGet res x = heapGet ob x := heapGet_congr hh
  have hreslen : res.heap.length = ob.heap.length := by rw [hh]
  have hsideok : sideOK b (heapGet ob a).Side := sideOK_decide _
  have hlevold : ∀ buy, ∀ lvl ∈ getTreeB ob buy, levelOK res buy lvl := by
    intro buy lvl hl
    refine levelOK_transport (hlev buy lvl hl) (le_of_eq hreslen.symm) ?_
    intro x _
    exact hgr x
  have hlevres : ∀ buy, ∀ lvl ∈ getTreeB res buy, levelOK res buy lvl := by
    intro buy lvl hlvl
    rcases bool_eq_or buy b with rfl | rfl
    · rw [hres] at hlvl
      rcases mem_middle_iff.mp hlvl with rfl | hlvl2
      · have hsdok : sideOK b sd := by
          rcases hcases with ⟨_, hsd, _⟩ | hteq
          · rw [hsd]
            exact hsideok
          · have hmemold : (⟨(heapGet ob a).Price, os, sd⟩ : PriceLevel) ∈ getTreeB ob b := by
              rw [hteq]
              exact List.mem_append.mpr (Or.inr (List.mem_cons_self _ _))
            exact (hlev b _ hmemold).2.1
        refine ⟨by simp, hsdok, ?_⟩
        intro x hx
        rcases List.mem_append.mp hx with hxos | hxn
        · rcases hcases with ⟨hos, _, _⟩ | hteq
          · rw [hos] at hxos
            simp at hxos
          · have hmemold : (⟨(heapGet ob a).Price, os, sd⟩ : PriceLevel) ∈ getTreeB ob b := by
              rw [hteq]
              exact List.mem_append.mpr (Or.inr (List.mem_cons_self _ _))
            obtain ⟨hv, hp2, hsd2⟩ := (hlev b _ hmemold).2.2 x hxos
            exact ⟨hreslen ▸ hv, by rw [hgr x]; exact hp2, by rw [hgr x]; exact hsd2⟩
        · have hxa : x = a := by simpa using hxn
          rw [hxa]
          exact ⟨hreslen ▸ haval, by rw [hgr a], by rw [hgr a]; exact hsideok⟩
      · apply hlevold
        rcases hcases with ⟨_, _, hteq⟩ | hteq
        · rw [hteq]
          exact hlvl2
        · rw [hteq]
          rcases List.mem_append.mp hlvl2 with h1 | h2
          · exact List.mem_append.mpr (Or.inl h1)
          · exact List.mem_append.mpr (Or.inr (List.mem_cons_of_mem _ h2))
    · apply hlevold
      rw [← hothers]
      exact hlvl
  have hsorres : ∀ buy, SortedT buy (getTreeB res buy) := by
    intro buy
    rcases bool_eq_or buy b with rfl | rfl
    · exact hsb
    · rw [hothers]
      exact hsor (!b)
  have hXY : ∃ X Y : List ℕ, allAddrs ob = X ++ Y ∧ allAddrs res = X ++ a :: Y := by
    rcases hcases with ⟨hos, _, hteq⟩ | hteq
    · obtain ⟨pre, post, h1, h2⟩ := @allAddrs_decomp_of_trees ob res b _ _
        hothers (by rw [hteq, treeAddrs_append]) (by rw [hres, treeAddrs_append, treeAddrs_cons])
      refine ⟨pre ++ treeAddrs t₁, treeAddrs t₂ ++ post, ?_, ?_⟩
      · rw [h1]
        simp [List.append_assoc]
      · rw [h2, hos]
        simp [List.append_assoc]
    · obtain ⟨pre, post, h1, h2⟩ := @allAddrs_decomp_of_trees ob res b _ _
        hothers (by rw [hteq, treeAddrs_append, treeAddrs_cons])
        (by rw [hres, treeAddrs_append, treeAddrs_cons])
      refine ⟨pre ++ (treeAddrs t₁ ++ os), treeAddrs t₂ ++ post, ?_, ?_⟩
      · rw [h1]
        simp [List.append_assoc]
      · rw [h2]
        simp [List.append_assoc]
  obtain ⟨X, Y, hallob, hallres⟩ := hXY
  exact WF_insert_assemble ob res a X Y hallob hallres hh hoo hsorres hlevres
    hnd hidnd hk hafresh hidfresh hm1 hm2

/-- The remove / mutate-in-place / re-admit pattern of the two amendment
operations preserves the invariant whenever the mutation keeps the order id. -/
theorem removeSetAdd_WF (ob : OrderBook) (id : String) (a : ℕ) (f : Order → Order)
    (hwf : WF ob) (hm : mapGet ob.Orders id = some a)
    (hfid : ∀ o : Order, (f o).OrderID = o.OrderID) :
    WF (addOrderAddr
      (heapSet (removeOrderAddr ob a) a (f (heapGet (removeOrderAddr ob a) a))) a) := by
  obtain ⟨htre, hmap⟩ := (WF_iff ob).mp hwf
  obtain ⟨ha0, hida0⟩ := hmap.2.1 (id, a) (mapGet_eq_some_mem _ _ _ hm)
  have ha : a ∈ allAddrs ob := ha0
  have hida : (heapGet ob a).OrderID = id := hida0
  obtain ⟨hh, ho, hltp, ⟨X, Y, hallob, hallob1⟩, hsor1, hlev1⟩ :=
    removeOrderAddr_parts ob a hwf ha
  set ob1 := removeOrderAddr ob a with hob1
  set ob2 := heapSet ob1 a (f (heapGet ob1 a)) with hob2
  have ho2 : ob2.Orders = ob.Orders := ho
  have hg1 : ∀ x, heapGet ob1 x = heapGet ob x := heapGet_congr hh
  have hanotin1 : a ∉ allAddrs ob1 := by
    rw [hallob1]
    exact (nodup_remove_middle (hallob ▸ htre.2.2.2.2.1)).2
  have haval : a < ob.heap.length := treesOK_valid htre a ha
  have hg2ne : ∀ x, x ≠ a → heapGet ob2 x = heapGet ob x := by
    intro x hx
    rw [hob2, heapSet_get_ne _ _ _ _ (fun hc => hx hc.symm), hg1 x]
  have hg2a_id : (heapGet ob2 a).OrderID = id := by
    rw [hob2, heapSet_get_self _ _ _ (by rw [hh]; exact haval), hfid, hg1 a]
    exact hida
  have hmem1 : ∀ x ∈ allAddrs ob1, x ∈ allAddrs ob ∧ x ≠ a := by
    intro x hx
    constructor
    · rw [hallob]
      rw [hallob1] at hx
      exact mem_middle_iff.mpr (Or.inr hx)
    · intro hc
      subst hc
      exact hanotin1 hx
  have hall2 : allAddrs ob2 = allAddrs ob1 := by rw [hob2, allAddrs_heapSet]
  have hsubl : (allAddrs ob1).Sublist (allAddrs ob) := by
    rw [hallob, hallob1]
    exact List.Sublist.append (List.Sublist.refl X) (List.sublist_cons_self a Y)
  apply addOrderAddr_WF_generic
  · intro buy
    rw [hob2, getTreeB_heapSet]
    exact hsor1 buy
  · intro buy lvl hl
    rw [hob2, getTreeB_heapSet] at hl
    refine levelOK_transport (hlev1 buy lvl hl) (le_of_eq (by rw [hob2, heapSet_length])) ?_
    intro x hx
    have hxa := hmem1 x (mem_allAddrs_of_level hl hx)
    rw [hg2ne x hxa.2]
    exact (hg1 x).symm
  · rw [hall2, hallob1]
    exact (nodup_remove_middle (hallob ▸ htre.2.2.2.2.1)).1
  · rw [hall2]
    have hmapeq : (allAddrs ob1).map (fun x => (heapGet ob2 x).OrderID)
        = (allAddrs ob1).map (fun x => (heapGet ob x).OrderID) :=
      List.map_congr_left (fun x hx => by rw [hg2ne x (hmem1 x hx).2])
    rw [hmapeq]
    exact (hsubl.map _).nodup htre.2.2.2.2.2
  · rw [ho2]
    exact hmap.1
  · rw [hall2]
    exact hanotin1
  · rw [hob2, heapSet_length, hh]
    exact haval
  · intro x hx hc
    rw [hall2] at hx
    have hxa := hmem1 x hx
    rw [hg2ne x hxa.2, hg2a_id] at hc
    have h1 := hmap.2.2 x hxa.1
    rw [hc, hm] at h1
    exact hxa.2 (Option.some.inj h1).symm
  · intro e he
    rw [ho2] at he
    obtain ⟨hea, heid⟩ := hmap.2.1 e he
    by_cases heq : e.2 = a
    · refine ⟨?_, Or.inr heq⟩
      rw [heq, hg2a_id]
      have h2 : (heapGet ob a).OrderID = e.1 := by
        rw [← heq]
        exact heid
      rw [← h2]
      exact hida.symm
    · refine ⟨by rw [hg2ne e.2 heq]; exact heid, Or.inl ?_⟩
      rw [hall2, hallob1]
      rw [hallob] at hea
      rcases mem_middle_iff.mp hea with h | h
      · exact absurd h heq
      · exact h
  · intro x hx
    rw [hall2] at hx
    have hxa := hmem1 x hx
    rw [ho2, hg2ne x hxa.2]
    exact hmap.2.2 x hxa.1

/-! ### Invariant preservation by each documented operation -/

theorem RemoveOrder_WF {ob : OrderBook} (id : String) (hwf : WF ob) :
    WF (RemoveOrder ob id).2 := by
  cases hm : mapGet ob.Orders id with
  | none =>
    simp only [RemoveOrder, hm]
    exact hwf
  | some a =>
    simp only [RemoveOrder, hm]
    exact (removeAndDelete_WF ob _ id a hwf hm rfl).1

theorem ModifyOrderPrice_WF {ob : OrderBook} (id : String) (p : ℚ) (hwf : WF ob) :
    WF (ModifyOrderPrice ob id p).2 := by
  cases hm : mapGet ob.Orders id with
  | none =>
    simp only [ModifyOrderPrice, hm]
    exact hwf
  | some a =>
    simp only [ModifyOrderPrice, hm]
    exact removeSetAdd_WF ob id a (fun o => { o with Price := p }) hwf hm (fun o => rfl)

theorem ModifyOrderSide_WF {ob : OrderBook} (id s : String) (hwf : WF ob) :
    WF (ModifyOrderSide ob id s).2 := by
  by_cases hval : s ≠ "buy" ∧ s ≠ "sell"
  · simp only [ModifyOrderSide, if_pos hval]
    exact hwf
  · cases hm : mapGet ob.Orders id with
    | none =>
      simp only [ModifyOrderSide, if_neg hval, hm]
      exact hwf
    | some a =>
      simp only [ModifyOrderSide, if_neg hval, hm]
      exact removeSetAdd_WF ob id a (fun o => { o with Side := s }) hwf hm (fun o => rfl)

theorem ModifyOrderQuantity_WF {ob : OrderBook} (id : String) (q : ℚ) (hwf : WF ob) :
    WF (ModifyOrderQuantity ob id q).2 := by
  by_cases hneg : q < 0
  · simp only [ModifyOrderQuantity, if_pos hneg]
    exact hwf
  · cases hm : mapGet ob.Orders id with
    | none =>
      simp only [ModifyOrderQuantity, if_neg hneg, hm]
      exact hwf
    | some a =>
      by_cases hzero : q = 0
      · simp only [ModifyOrderQuantity, if_neg hneg, hm, if_pos hzero]
        exact (removeAndDelete_WF ob _ id a hwf hm rfl).1
      · simp only [ModifyOrderQuantity, if_neg hneg, hm, if_neg hzero]
        exact heapSet_WF hwf rfl rfl rfl

/-! ### The matching loop -/

theorem head?_decomp {α : Type} {l : List α} {x : α} (h : l.head? = some x) :
    ∃ t, l = x :: t := by
  cases l with
  | nil => simp at h
  | cons y t =>
    obtain rfl : y = x := by simpa using h
    exact ⟨t, rfl⟩

theorem fmin_zero (a b : ℚ) : a - fmin a b = 0 ∨ b - fmin a b = 0 := by
  rw [fmin]
  split
  · left
    ring
  · right
    ring

theorem tradeStep_spec (ob : OrderBook) (b s : ℕ) (hwf : WF ob) (hbs : b ≠ s)
    (hbval : b < ob.heap.length) (hsval : s < ob.heap.length) :
    WF (tradeStep ob b s) ∧
    (tradeStep ob b s).LastTradedPrice = (heapGet ob s).Price ∧
    (tradeStep ob b s).Orders = ob.Orders ∧
    allAddrs (tradeStep ob b s) = allAddrs ob ∧
    (tradeStep ob b s).heap.length = ob.heap.length ∧
    heapGet (tradeStep ob b s) b
      = { heapGet ob b with
          Quantity := (heapGet ob b).Quantity -
            fmin (heapGet ob b).Quantity (heapGet ob s).Quantity } ∧
    heapGet (tradeStep ob b s) s
      = { heapGet ob s with
          Quantity := (heapGet ob s).Quantity -
            fmin (heapGet ob b).Quantity (heapGet ob s).Quantity } ∧
    (∀ x, x ≠ b → x ≠ s → heapGet (tradeStep ob b s) x = heapGet ob x) := by
  have hg1 : ∀ x, heapGet { ob with LastTradedPrice := (heapGet ob s).Price } x
      = heapGet ob x := fun _ => rfl
  simp only [tradeStep, hg1]
  set obL : OrderBook := { ob with LastTradedPrice := (heapGet ob s).Price } with hobL
  set tq := fmin (heapGet ob b).Quantity (heapGet ob s).Quantity with htq
  set v1 : Order := { heapGet ob b with Quantity := (heapGet ob b).Quantity - tq } with hv1
  set ob2 := heapSet obL b v1 with hob2
  have hwf1 : WF obL := hwf
  have hlen1 : obL.heap.length = ob.heap.length := rfl
  have hlen2 : ob2.heap.length = ob.heap.length := by
    rw [hob2, heapSet_length, hlen1]
  have hg2s : heapGet ob2 s = heapGet ob s := by
    rw [hob2, heapSet_get_ne _ _ _ _ hbs]
    exact hg1 s
  simp only [hg2s]
  set v2 : Order := { heapGet ob s with Quantity := (heapGet ob s).Quantity - tq } with hv2
  have hg2b : heapGet ob2 b = v1 := by
    rw [hob2, heapSet_get_self _ _ _ (by rw [hlen1]; exact hbval)]
  refine ⟨?_, rfl, rfl, rfl, ?_, ?_, ?_, ?_⟩
  · refine heapSet_WF (heapSet_WF hwf1 rfl rfl rfl) ?_ ?_ ?_ <;> rw [hg2s]
  · rw [show (heapSet ob2 s v2).heap.length = ob2.heap.length from heapSet_length _ _ _,
      hlen2]
  · rw [heapSet_get_ne _ _ _ _ (fun hc => hbs hc.symm)]
    exact hg2b
  · rw [heapSet_get_self _ _ _ (by rw [hlen2]; exact hsval)]
  · intro x hxb hxs
    rw [heapSet_get_ne _ _ _ _ (fun hc => hxs hc.symm), hob2,
      heapSet_get_ne _ _ _ _ (fun hc => hxb hc.symm)]
    exact hg1 x

theorem dropIfFilled_spec (ob : OrderBook) (a : ℕ) (hwf : WF ob)
    (ha : a ∈ allAddrs ob) :
    WF (dropIfFilled ob a) ∧
    (dropIfFilled ob a).heap = ob.heap ∧
    (dropIfFilled ob a).LastTradedPrice = ob.LastTradedPrice ∧
    (∀ x ∈ allAddrs (dropIfFilled ob a), x ∈ allAddrs ob) ∧
    addrCount (dropIfFilled ob a) ≤ addrCount ob ∧
    ((heapGet ob a).Quantity = 0 →
      addrCount (dropIfFilled ob a) < addrCount ob ∧
      a ∉ allAddrs (dropIfFilled ob a) ∧
      mapGet (dropIfFilled ob a).Orders (heapGet ob a).OrderID = none) ∧
    ((heapGet ob a).Quantity ≠ 0 → dropIfFilled ob a = ob) ∧
    (∀ x ∈ allAddrs ob, x ≠ a → x ∈ allAddrs (dropIfFilled ob a)) ∧
    (∀ id2, id2 ≠ (heapGet ob a).OrderID →
      mapGet (dropIfFilled ob a).Orders id2 = mapGet ob.Orders id2) := by
  by_cases hq : (heapGet ob a).Quantity = 0
  · have hrh : (removeOrderAddr ob a).heap = ob.heap :=
      (removeOrderAddr_parts ob a hwf ha).1
    have hid : (heapGet (removeOrderAddr ob a) a).OrderID = (heapGet ob a).OrderID := by
      rw [heapGet_congr hrh]
    have hm : mapGet ob.Orders (heapGet (removeOrderAddr ob a) a).OrderID = some a := by
      rw [hid]
      exact hwf.2.2.2.2.2.2.2.2 a ha
    obtain ⟨hwfres, hheap, hltp, hcnt, hnotin, hmemof, hmemto, hgetid, hgetother⟩ :=
      removeAndDelete_WF ob _ (heapGet (removeOrderAddr ob a) a).OrderID a hwf hm rfl
    have hdres : dropIfFilled ob a = { removeOrderAddr ob a with
        Orders := mapDelete (heapGet (removeOrderAddr ob a) a).OrderID
          (removeOrderAddr ob a).Orders } := by
      rw [dropIfFilled, if_pos hq]
    rw [hdres]
    refine ⟨hwfres, hheap, hltp, hmemof, by omega, fun _ => ⟨by omega, hnotin, ?_⟩,
      fun hc => absurd hq hc, hmemto, ?_⟩
    · rw [← hid]
      exact hgetid
    · intro id2 h2
      exact hgetother id2 (by rw [hid]; exact h2)
  · have hdres : dropIfFilled ob a = ob := by
      rw [dropIfFilled, if_neg hq]
    rw [hdres]
    exact ⟨hwf, rfl, rfl, fun x hx => hx, le_refl _, fun hc => absurd hc hq,
      fun _ => rfl, fun x hx _ => hx, fun id2 _ => rfl⟩

/-- Full characterisation of one executed matching iteration on a consistent
book: the claimed trade effects hold and the book stays consistent while
strictly losing at least one resting order. -/
theorem matchStep_spec (ob : OrderBook) (hwf : WF ob)
    (hb ls : PriceLevel) (b s : ℕ)
    (hhb : ob.BuyTree.head? = some hb) (hls : ob.SellTree.head? = some ls)
    (hcross : ls.Price ≤ hb.Price)
    (hbo : hb.Orders.head? = some b) (hso : ls.Orders.head? = some s) :
    ∃ ob5, matchStep ob = some ob5 ∧ WF ob5 ∧
      addrCount ob5 < addrCount ob ∧
      ob5.LastTradedPrice = (heapGet ob s).Price ∧
      (heapGet ob5 b).Quantity = (heapGet ob b).Quantity -
        fmin (heapGet ob b).Quantity (heapGet ob s).Quantity ∧
      (heapGet ob5 s).Quantity = (heapGet ob s).Quantity -
        fmin (heapGet ob b).Quantity (heapGet ob s).Quantity ∧
      ((heapGet ob5 b).Quantity = 0 →
        b ∉ allAddrs ob5 ∧ mapGet ob5.Orders (heapGet ob b).OrderID = none) ∧
      ((heapGet ob5 s).Quantity = 0 →
        s ∉ allAddrs ob5 ∧ mapGet ob5.Orders (heapGet ob s).OrderID = none) ∧
      (∀ x, x ≠ b → x ≠ s → heapGet ob5 x = heapGet ob x) := by
  obtain ⟨tb, htb⟩ := head?_decomp hhb
  obtain ⟨ts2, hts⟩ := head?_decomp hls
  obtain ⟨obs1, hob1⟩ := head?_decomp hbo
  obtain ⟨oss2, hos⟩ := head?_decomp hso
  have hbmem : hb ∈ getTreeB ob true := by
    show hb ∈ ob.BuyTree
    rw [htb]
    exact List.mem_cons_self _ _
  have hlmem : ls ∈ getTreeB ob false := by
    show ls ∈ ob.SellTree
    rw [hts]
    exact List.mem_cons_self _ _
  have hbord : b ∈ hb.Orders := by
    rw [hob1]
    exact List.mem_cons_self _ _
  have hsord : s ∈ ls.Orders := by
    rw [hos]
    exact List.mem_cons_self _ _
  have hball : b ∈ allAddrs ob := mem_allAddrs_of_level hbmem hbord
  have hsall : s ∈ allAddrs ob := mem_allAddrs_of_level hlmem hsord
  obtain ⟨htre, hmap⟩ := (WF_iff ob).mp hwf
  have hbinfo := (treesOK_level htre true hb hbmem).2.2 b hbord
  have hsinfo := (treesOK_level htre false ls hlmem).2.2 s hsord
  have hbs : b ≠ s := by
    intro hc
    have h1 : (heapGet ob b).Side = "buy" := by simpa [sideOK] using hbinfo.2.2
    have h2 : (heapGet ob s).Side ≠ "buy" := by simpa [sideOK] using hsinfo.2.2
    rw [hc] at h1
    exact h2 h1
  have hstep : matchStep ob = some (dropIfFilled (dropIfFilled (tradeStep ob b s) b) s) := by
    simp only [matchStep, hhb, hls, if_pos hcross, hbo, hso]
  obtain ⟨hwfT, hltpT, hordT, hallT, hlenT, hgTb, hgTs, hgTx⟩ :=
    tradeStep_spec ob b s hwf hbs hbinfo.1 hsinfo.1
  set obT := tradeStep ob b s with hobT
  set tq := fmin (heapGet ob b).Quantity (heapGet ob s).Quantity with htq
  have hqTb : (heapGet obT b).Quantity = (heapGet ob b).Quantity - tq := by rw [hgTb]
  have hqTs : (heapGet obT s).Quantity = (heapGet ob s).Quantity - tq := by rw [hgTs]
  have hidTb : (heapGet obT b).OrderID = (heapGet ob b).OrderID := by rw [hgTb]
  have hidTs : (heapGet obT s).OrderID = (heapGet ob s).OrderID := by rw [hgTs]
  have hballT : b ∈ allAddrs obT := by
    rw [hallT]
    exact hball
  have hsallT : s ∈ allAddrs obT := by
    rw [hallT]
    exact hsall
  obtain ⟨hwf4, hheap4, hltp4, hmemof4, hcnt4, hzero4, _hnz4, hmemto4, hmap4⟩ :=
    dropIfFilled_spec obT b hwfT hballT
  set ob4 := dropIfFilled obT b with hob4
  have hg4 : ∀ x, heapGet ob4 x = heapGet obT x := heapGet_congr hheap4
  have hsall4 : s ∈ allAddrs ob4 := hmemto4 s hsallT (fun hc => hbs hc.symm)
  obtain ⟨hwf5, hheap5, hltp5, hmemof5, hcnt5, hzero5, _hnz5, _hmemto5, hmap5⟩ :=
    dropIfFilled_spec ob4 s hwf4 hsall4
  set ob5 := dropIfFilled ob4 s with hob5
  have hg5 : ∀ x, heapGet ob5 x = heapGet obT x := by
    intro x
    rw [heapGet_congr hheap5 x, hg4 x]
  have hidne : (heapGet ob b).OrderID ≠ (heapGet ob s).OrderID := by
    intro hc
    exact hbs (List.inj_on_of_nodup_map htre.2.2.2.2.2 hball hsall hc)
  refine ⟨ob5, hstep, hwf5, ?_, ?_, ?_, ?_, ?_, ?_, ?_⟩
  · have hTcount : addrCount obT = addrCount ob := by
      rw [addrCount, addrCount, hallT]
    rcases fmin_zero (heapGet ob b).Quantity (heapGet ob s).Quantity with h0 | h0
    · have hq0 : (heapGet obT b).Quantity = 0 := by
        rw [hqTb]
        exact h0
      have hd := (hzero4 hq0).1
      omega
    · have hq0 : (heapGet ob4 s).Quantity = 0 := by
        rw [hg4 s, hqTs]
        exact h0
      have hd := (hzero5 hq0).1
      omega
  · rw [hltp5, hltp4, hltpT]
  · rw [hg5 b]
    exact hqTb
  · rw [hg5 s]
    exact hqTs
  · intro h0
    rw [hg5 b] at h0
    obtain ⟨_hlt4, hnotin4, hnone4⟩ := hzero4 h0
    constructor
    · intro hc
      exact hnotin4 (hmemof5 b hc)
    · have hne2 : (heapGet ob b).OrderID ≠ (heapGet ob4 s).OrderID := by
        rw [hg4 s, hidTs]
        exact hidne
      rw [hmap5 _ hne2, ← hidTb]
      exact hnone4
  · intro h0
    rw [hg5 s] at h0
    have h04 : (heapGet ob4 s).Quantity = 0 := by
      rw [hg4 s]
      exact h0
    obtain ⟨_, hnotin5, hnone5⟩ := hzero5 h04
    refine ⟨hnotin5, ?_⟩
    rw [show (heapGet ob s).OrderID = (heapGet ob4 s).OrderID from by rw [hg4 s, hidTs]]
    exact hnone5
  · intro x hxb hxs
    rw [hg5 x]
    exact hgTx x hxb hxs

theorem matchStep_some_inv {ob ob1 : OrderBook} (h : matchStep ob = some ob1) :
    ∃ hb ls b s, ob.BuyTree.head? = some hb ∧ ob.SellTree.head? = some ls ∧
      ls.Price ≤ hb.Price ∧ hb.Orders.head? = some b ∧ ls.Orders.head? = some s := by
  cases hhb : ob.BuyTree.head? with
  | none => simp [matchStep, hhb] at h
  | some hb =>
    cases hls : ob.SellTree.head? with
    | none => simp [matchStep, hhb, hls] at h
    | some ls =>
      by_cases hcross : ls.Price ≤ hb.Price
      · cases hbo : hb.Orders.head? with
        | none => simp [matchStep, hhb, hls, if_pos hcross, hbo] at h
        | some b =>
          cases hso : ls.Orders.head? with
          | none => simp [matchStep, hhb, hls, if_pos hcross, hbo, hso] at h
          | some s => exact ⟨hb, ls, b, s, rfl, rfl, hcross, hbo, hso⟩
      · simp [matchStep, hhb, hls, if_neg hcross] at h

theorem matchStep_WF {ob ob1 : OrderBook} (hwf : WF ob) (h : matchStep ob = some ob1) :
    WF ob1 ∧ addrCount ob1 < addrCount ob := by
  obtain ⟨hb, ls, b, s, hhb, hls, hcross, hbo, hso⟩ := matchStep_some_inv h
  obtain ⟨ob5, heq, hwf5, hlt, _⟩ := matchStep_spec ob hwf hb ls b s hhb hls hcross hbo hso
  rw [h] at heq
  obtain rfl := Option.some.inj heq
  exact ⟨hwf5, hlt⟩

/-- On a consistent book, if the loop guard would fire then `matchStep`
executes a trade, so a `none` result means there is no cross. -/
theorem matchStep_none_nocross {ob : OrderBook} (hwf : WF ob) (h : matchStep ob = none) :
    ¬((GetBestBid ob).2 = true ∧ (GetBestAsk ob).2 = true ∧
      (GetBestAsk ob).1 ≤ (GetBestBid ob).1) := by
  rintro ⟨hbb, hba, hle⟩
  cases htb : ob.BuyTree with
  | nil => simp [GetBestBid, htb] at hbb
  | cons hb tb =>
    cases hts : ob.SellTree with
    | nil => simp [GetBestAsk, hts] at hba
    | cons ls ts =>
      have hbb1 : (GetBestBid ob).1 = hb.Price := by simp [GetBestBid, htb]
      have hba1 : (GetBestAsk ob).1 = ls.Price := by simp [GetBestAsk, hts]
      rw [hba1, hbb1] at hle
      have hbmem : hb ∈ getTreeB ob true := by
        show hb ∈ ob.BuyTree
        rw [htb]
        exact List.mem_cons_self _ _
      have hlmem : ls ∈ getTreeB ob false := by
        show ls ∈ ob.SellTree
        rw [hts]
        exact List.mem_cons_self _ _
      obtain ⟨htre, _⟩ := (WF_iff ob).mp hwf
      obtain ⟨b, hbo⟩ : ∃ b, hb.Orders.head? = some b := by
        cases hbords : hb.Orders with
        | nil => exact absurd hbords (treesOK_level htre true hb hbmem).1
        | cons b t => exact ⟨b, rfl⟩
      obtain ⟨s, hso⟩ : ∃ s, ls.Orders.head? = some s := by
        cases hsords : ls.Orders with
        | nil => exact absurd hsords (treesOK_level htre false ls hlmem).1
        | cons s t => exact ⟨s, rfl⟩
      have hhb : ob.BuyTree.head? = some hb := by rw [htb]; rfl
      have hls : ob.SellTree.head? = some ls := by rw [hts]; rfl
      simp [matchStep, hhb, hls, if_pos hle, hbo, hso] at h

theorem MatchOrdersFuel_some_WF : ∀ (n : ℕ) {ob r : OrderBook}, WF ob →
    MatchOrdersFuel n ob = some r → WF r := by
  intro n
  induction n with
  | zero =>
    intro ob r _ hr
    simp [MatchOrdersFuel] at hr
  | succ n ih =>
    intro ob r h hr
    rw [MatchOrdersFuel] at hr
    cases hstep : matchStep ob with
    | none =>
      rw [hstep] at hr
      obtain rfl := Option.some.inj hr
      exact h
    | some ob1 =>
      rw [hstep] at hr
      exact ih (matchStep_WF h hstep).1 hr

theorem MatchFuel_getD_WF (n : ℕ) {ob : OrderBook} (h : WF ob) :
    WF ((MatchOrdersFuel n ob).getD ob) := by
  cases hr : MatchOrdersFuel n ob with
  | none => simpa using h
  | some r =>
    have := MatchOrdersFuel_some_WF n h hr
    simpa using this

/-- On a consistent book the matching loop terminates: any fuel above the
number of resting orders reaches the loop's exit condition. -/
theorem matchFuel_terminates : ∀ (n : ℕ) (ob : OrderBook), WF ob → addrCount ob < n →
    ∃ r, MatchOrdersFuel n ob = some r ∧ WF r ∧ matchStep r = none := by
  intro n
  induction n with
  | zero =>
    intro ob _ h
    omega
  | succ n ih =>
    intro ob hwf hcnt
    cases hstep : matchStep ob with
    | none =>
      refine ⟨ob, ?_, hwf, hstep⟩
      rw [MatchOrdersFuel, hstep]
    | some ob1 =>
      obtain ⟨hwf1, hlt⟩ := matchStep_WF hwf hstep
      obtain ⟨r, hr, hwfr, hnone⟩ := ih ob1 hwf1 (by omega)
      refine ⟨r, ?_, hwfr, hnone⟩
      rw [MatchOrdersFuel, hstep]
      exact hr

/-! ### The invariant along duplicate-free histories -/

theorem WF_new : WF NewOrderBook := by decide

theorem wf_of_reachableND {ob : OrderBook} (h : ReachableND ob) : WF ob := by
  induction h with
  | init => exact WF_new
  | add ob o _ hfresh ih => exact AddOrder_WF ih hfresh
  | remove ob id _ ih => exact RemoveOrder_WF id ih
  | modifyPrice ob id p _ ih => exact ModifyOrderPrice_WF id p ih
  | modifySide ob id s _ ih => exact ModifyOrderSide_WF id s ih
  | modifyQuantity ob id q _ ih => exact ModifyOrderQuantity_WF id q ih
  | runMatching ob n _ ih => exact MatchFuel_getD_WF n ih

/-! ### Sortedness of the side indexes along arbitrary histories -/

theorem sortedBook_sides {ob : OrderBook} (h : SortedBook ob) :
    ∀ buy, SortedT buy (getTreeB ob buy) := by
  intro buy
  cases buy
  · exact h.2
  · exact h.1

theorem sortedBook_setTree_insert (ob : OrderBook) (buy : Bool) (lvl : PriceLevel)
    (h : SortedBook ob) :
    SortedBook (setTreeB ob buy (treeInsert buy lvl (getTreeB ob buy))) := by
  cases buy
  · exact ⟨h.1, treeInsert_sorted false lvl h.2⟩
  · exact ⟨treeInsert_sorted true lvl h.1, h.2⟩

theorem sortedBook_setTree_delete (ob : OrderBook) (buy : Bool) (p : ℚ)
    (h : SortedBook ob) :
    SortedBook (setTreeB ob buy (treeDelete p (getTreeB ob buy))) := by
  cases buy
  · exact ⟨h.1, treeDelete_sorted false p h.2⟩
  · exact ⟨treeDelete_sorted true p h.1, h.2⟩

theorem addOrderAddr_sorted {ob : OrderBook} (a : ℕ) (h : SortedBook ob) :
    SortedBook (addOrderAddr ob a) := by
  have hOrdersTrees : SortedBook { ob with
      Orders := mapInsert (heapGet ob a).OrderID a ob.Orders } := h
  rw [addOrderAddr]
  cases hfind : treeFind (getTreeB { ob with
      Orders := mapInsert (heapGet ob a).OrderID a ob.Orders }
      (decide ((heapGet ob a).Side = "buy"))) (heapGet ob a).Price with
  | some lvl => exact sortedBook_setTree_insert _ _ _ hOrdersTrees
  | none => exact sortedBook_setTree_insert _ _ _ hOrdersTrees

theorem removeOrderAddr_sorted {ob : OrderBook} (a : ℕ) (h : SortedBook ob) :
    SortedBook (removeOrderAddr ob a) := by
  set b := decide ((heapGet ob a).Side = "buy") with hb
  cases hfind : treeFind (getTreeB ob b) (heapGet ob a).Price with
  | none =>
    have hres : removeOrderAddr ob a = ob := by
      rw [removeOrderAddr, ← hb, hfind]
    rw [hres]
    exact h
  | some lvl =>
    cases hrem : removeFirstID ob.heap (heapGet ob a).OrderID lvl.Orders with
    | none =>
      have hres : removeOrderAddr ob a = ob := by
        rw [removeOrderAddr, ← hb, hfind]
        simp only [hrem]
      rw [hres]
      exact h
    | some os =>
      have hres : removeOrderAddr ob a =
          (if os = [] then setTreeB ob b (treeDelete lvl.Price (getTreeB ob b))
           else setTreeB ob b (treeInsert b { lvl with Orders := os } (getTreeB ob b))) := by
        rw [removeOrderAddr, ← hb, hfind]
        simp only [hrem]
      rw [hres]
      by_cases hos : os = []
      · rw [if_pos hos]
        exact sortedBook_setTree_delete ob b _ h
      · rw [if_neg hos]
        exact sortedBook_setTree_insert ob b _ h

theorem heapSet_sorted {ob : OrderBook} (a : ℕ) (o : Order) (h : SortedBook ob) :
    SortedBook (heapSet ob a o) := h

theorem withOrders_sorted {ob : OrderBook} (m : List (String × ℕ)) (h : SortedBook ob) :
    SortedBook { ob with Orders := m } := h

theorem tradeStep_sorted {ob : OrderBook} (b s : ℕ) (h : SortedBook ob) :
    SortedBook (tradeStep ob b s) := h

theorem dropIfFilled_sorted {ob : OrderBook} (a : ℕ) (h : SortedBook ob) :
    SortedBook (dropIfFilled ob a) := by
  rw [dropIfFilled]
  by_cases hq : (heapGet ob a).Quantity = 0
  · rw [if_pos hq]
    exact withOrders_sorted _ (removeOrderAddr_sorted a h)
  · rw [if_neg hq]
    exact h

theorem matchStep_sorted {ob ob1 : OrderBook} (h : SortedBook ob)
    (hs : matchStep ob = some ob1) : SortedBook ob1 := by
  obtain ⟨hb, ls, b, s, hhb, hls, hcross, hbo, hso⟩ := matchStep_some_inv hs
  have heq : matchStep ob = some (dropIfFilled (dropIfFilled (tradeStep ob b s) b) s) := by
    simp only [matchStep, hhb, hls, if_pos hcross, hbo, hso]
  rw [hs] at heq
  obtain rfl := Option.some.inj heq
  exact dropIfFilled_sorted s (dropIfFilled_sorted b (tradeStep_sorted b s h))

theorem matchFuel_sorted : ∀ (n : ℕ) {ob r : OrderBook}, SortedBook ob →
    MatchOrdersFuel n ob = some r → SortedBook r := by
  intro n
  induction n with
  | zero =>
    intro ob r _ hr
    simp [MatchOrdersFuel] at hr
  | succ n ih =>
    intro ob r h hr
    rw [MatchOrdersFuel] at hr
    cases hstep : matchStep ob with
    | none =>
      rw [hstep] at hr
      obtain rfl := Option.some.inj hr
      exact h
    | some ob1 =>
      rw [hstep] at hr
      exact ih (matchStep_sorted h hstep) hr

theorem applyOp_sorted {ob : OrderBook} (op : Op) (h : SortedBook ob) :
    SortedBook (applyOp ob op) := by
  cases op with
  | add o =>
    exact addOrderAddr_sorted _ (show SortedBook { ob with heap := ob.heap ++ [o] } from h)
  | remove id =>
    rw [applyOp, RemoveOrder]
    cases mapGet ob.Orders id with
    | none => exact h
    | some a => exact withOrders_sorted _ (removeOrderAddr_sorted a h)
  | modifyPrice id p =>
    rw [applyOp, ModifyOrderPrice]
    cases mapGet ob.Orders id with
    | none => exact h
    | some a =>
      exact addOrderAddr_sorted a (heapSet_sorted a _ (removeOrderAddr_sorted a h))
  | modifySide id s =>
    rw [applyOp, ModifyOrderSide]
    by_cases hval : s ≠ "buy" ∧ s ≠ "sell"
    · rw [if_pos hval]
      exact h
    · rw [if_neg hval]
      cases mapGet ob.Orders id with
      | none => exact h
      | some a =>
        exact addOrderAddr_sorted a (heapSet_sorted a _ (removeOrderAddr_sorted a h))
  | modifyQuantity id q =>
    by_cases hneg : q < 0
    · simp only [applyOp, ModifyOrderQuantity, if_pos hneg]
      exact h
    · cases hm : mapGet ob.Orders id with
      | none =>
        simp only [applyOp, ModifyOrderQuantity, if_neg hneg, hm]
        exact h
      | some a =>
        by_cases hzero : q = 0
        · simp only [applyOp, ModifyOrderQuantity, if_neg hneg, hm, if_pos hzero]
          exact withOrders_sorted _ (removeOrderAddr_sorted a h)
        · simp only [applyOp, ModifyOrderQuantity, if_neg hneg, hm, if_neg hzero]
          exact heapSet_sorted a _ h
  | runMatching n =>
    rw [applyOp]
    cases hr : MatchOrdersFuel n ob with
    | none => exact h
    | some r =>
      have := matchFuel_sorted n h hr
      simpa using this

theorem sorted_of_reachable {ob : OrderBook} (h : Reachable ob) : SortedBook ob := by
  obtain ⟨ops, rfl⟩ := h
  have hgen : ∀ (ops : List Op) (start : OrderBook), SortedBook start →
      SortedBook (ops.foldl applyOp start) := by
    intro ops
    induction ops with
    | nil => intro start hs; exact hs
    | cons op rest ih =>
      intro start hs
      exact ih (applyOp start op) (applyOp_sorted op hs)
  exact hgen ops NewOrderBook (by constructor <;> constructor)

/-! ### Shape facts used by the admission claims -/

theorem mem_treeInsert_self (buy : Bool) (lvl : PriceLevel) (t : List PriceLevel) :
    lvl ∈ treeInsert buy lvl t := by
  induction t with
  | nil => exact List.mem_cons_self _ _
  | cons l ls ih =>
    by_cases h1 : priceBetter buy lvl.Price l.Price
    · simp only [treeInsert, if_pos h1]
      exact List.mem_cons_self _ _
    · by_cases h2 : priceBetter buy l.Price lvl.Price
      · simp only [treeInsert, if_neg h1, if_pos h2]
        exact List.mem_cons_of_mem _ ih
      · simp only [treeInsert, if_neg h1, if_neg h2]
        exact List.mem_cons_self _ _

theorem addOrderAddr_Orders (ob : OrderBook) (a : ℕ) :
    (addOrderAddr ob a).Orders = mapInsert (heapGet ob a).OrderID a ob.Orders := by
  rw [addOrderAddr]
  cases treeFind (getTreeB { ob with Orders := mapInsert (heapGet ob a).OrderID a ob.Orders }
      (decide ((heapGet ob a).Side = "buy"))) (heapGet ob a).Price with
  | none => rw [setTreeB_Orders]
  | some lvl => rw [setTreeB_Orders]

theorem addOrderAddr_heap (ob : OrderBook) (a : ℕ) :
    (addOrderAddr ob a).heap = ob.heap := by
  rw [addOrderAddr]
  cases treeFind (getTreeB { ob with Orders := mapInsert (heapGet ob a).OrderID a ob.Orders }
      (decide ((heapGet ob a).Side = "buy"))) (heapGet ob a).Price with
  | none => rw [setTreeB_heap]
  | some lvl => rw [setTreeB_heap]

theorem addOrderAddr_otherTree (ob : OrderBook) (a : ℕ) :
    getTreeB (addOrderAddr ob a) (!decide ((heapGet ob a).Side = "buy"))
      = getTreeB ob (!decide ((heapGet ob a).Side = "buy")) := by
  rw [addOrderAddr]
  cases treeFind (getTreeB { ob with Orders := mapInsert (heapGet ob a).OrderID a ob.Orders }
      (decide ((heapGet ob a).Side = "buy"))) (heapGet ob a).Price with
  | none => rw [getTreeB_setTreeB_other, getTreeB_withOrders]
  | some lvl => rw [getTreeB_setTreeB_other, getTreeB_withOrders]

theorem addOrderAddr_selfLevel (ob : OrderBook) (a : ℕ) :
    ∃ lvl ∈ getTreeB (addOrderAddr ob a) (decide ((heapGet ob a).Side = "buy")),
      lvl.Price = (heapGet ob a).Price ∧ lvl.Orders.getLast? = some a := by
  rw [addOrderAddr]
  cases hfind : treeFind (getTreeB { ob with
      Orders := mapInsert (heapGet ob a).OrderID a ob.Orders }
      (decide ((heapGet ob a).Side = "buy"))) (heapGet ob a).Price with
  | none =>
    rw [getTreeB_setTreeB_same]
    exact ⟨⟨(heapGet ob a).Price, [a], (heapGet ob a).Side⟩, mem_treeInsert_self _ _ _,
      rfl, rfl⟩
  | some lvl =>
    rw [getTreeB_setTreeB_same]
    exact ⟨{ lvl with Orders := lvl.Orders ++ [a] }, mem_treeInsert_self _ _ _,
      (treeFind_some hfind).2, List.getLast?_concat _⟩

/-! ### The lookup/level correspondence from the invariant -/

theorem countP_flatten_one {L : List PriceLevel} {a : ℕ}
    (hnd : ((L.map PriceLevel.Orders).flatten).Nodup)
    (ha : a ∈ (L.map PriceLevel.Orders).flatten) :
    L.countP (fun lvl => decide (a ∈ lvl.Orders)) = 1 := by
  induction L with
  | nil => simp at ha
  | cons l L ih =>
    rw [List.map_cons, List.flatten_cons] at hnd ha
    rw [List.countP_cons]
    rcases List.mem_append.mp ha with h1 | h2
    · have hdisj := (List.nodup_append.mp hnd).2.2
      have hzero : L.countP (fun lvl => decide (a ∈ lvl.Orders)) = 0 := by
        rw [List.countP_eq_zero]
        intro lvl hlvl hc
        have hmem : a ∈ (L.map PriceLevel.Orders).flatten :=
          List.mem_flatten.mpr ⟨lvl.Orders, List.mem_map_of_mem _ hlvl, of_decide_eq_true hc⟩
        exact hdisj h1 hmem
      rw [hzero]
      simp [h1]
    · have hnotl : a ∉ l.Orders := by
        intro hc
        exact (List.nodup_append.mp hnd).2.2 hc h2
      rw [ih (List.nodup_append.mp hnd).2.1 h2]
      simp [hnotl]

theorem flatten_both_eq_allAddrs (ob : OrderBook) :
    ((ob.BuyTree ++ ob.SellTree).map PriceLevel.Orders).flatten = allAddrs ob := by
  rw [List.map_append, List.flatten_append]
  rfl

theorem lookupLevelSync_of_WF {ob : OrderBook} (hwf : WF ob) : LookupLevelSync ob := by
  obtain ⟨htre, hmap⟩ := (WF_iff ob).mp hwf
  constructor
  · intro e he
    obtain ⟨hea, _heid⟩ := hmap.2.1 e he
    refine ⟨?_, ?_, ?_⟩
    · apply countP_flatten_one
      · rw [flatten_both_eq_allAddrs]
        exact htre.2.2.2.2.1
      · rw [flatten_both_eq_allAddrs]
        exact hea
    · intro lvl hl hmem2
      exact (((treesOK_level htre _) lvl hl).2.2 e.2 hmem2).2.1.symm
    · intro lvl hl hmem2
      have hok := ((treesOK_level htre _) lvl hl).2.2 e.2 hmem2
      have hside := sideOK_eq hok.2.2
      revert hside
      cases decide ((heapGet ob e.2).Side = "buy") <;> decide
  · intro lvl hl a ha
    rcases List.mem_append.mp hl with h | h
    · exact hmap.2.2 a (@mem_allAddrs_of_level ob true _ _ h ha)
    · exact hmap.2.2 a (@mem_allAddrs_of_level ob false _ _ h ha)

/-! ## The claims -/

/-- C1: starting from an empty `OrderBook`, after adding buy B1 (price 100,
qty 10), sell S1 (price 105, qty 5), buy B2 (price 102, qty 7), sell S2
(price 99, qty 8) and running the matching procedure, the book contains
exactly B1 with quantity 9 at price 100 on the bid side and S1 with quantity
5 at price 105 on the ask side, the last traded price is 99, and the current
market price is (99, available). -/
theorem matchOrders_scenario :
    MatchOrdersFuel 3 scenarioBook = some scenarioFinal ∧
    scenarioFinal.BuyTree = [⟨100, [0], "buy"⟩] ∧
    heapGet scenarioFinal 0 = ⟨"B1", 100, 9, 1, "buy"⟩ ∧
    scenarioFinal.SellTree = [⟨105, [1], "sell"⟩] ∧
    heapGet scenarioFinal 1 = ⟨"S1", 105, 5, 2, "sell"⟩ ∧
    scenarioFinal.Orders = [("B1", 0), ("S1", 1)] ∧
    scenarioFinal.LastTradedPrice = 99 ∧
    GetCurrentMarketPrice scenarioFinal = (99, true) := by
  with_unfolding_all decide

/-- C4 counterexample: the book after two `AddOrder` calls with the same id
"X" is reachable by the documented operations, yet the lookup/level
correspondence claimed for every reachable state fails on it: the older
order still rests in its level but the map no longer reaches it. -/
theorem lookup_level_sync_cex : Reachable dupBook ∧ ¬ LookupLevelSync dupBook :=
  ⟨⟨dupOps, rfl⟩, by decide⟩

/-- C4 (amended): in every book state reachable by the documented operations
with `addOrder` never called on an id already present in the lookup map,
every order reachable via the id-lookup map rests in exactly one price
level, in the index of its own side at a level of its own price, and
conversely every resting order is reachable via the map under its
identifier. -/
theorem lookup_level_sync_of_reachableND {ob : OrderBook} (h : ReachableND ob) :
    LookupLevelSync ob :=
  lookupLevelSync_of_WF (wf_of_reachableND h)

/-- Witness for the amended C4 at a concrete duplicate-free history. -/
theorem lookup_level_sync_of_reachableND_witness :
    ReachableND crossBook ∧ LookupLevelSync crossBook := by
  have h0 : ReachableND NewOrderBook := ReachableND.init
  have h1 : ReachableND (AddOrder NewOrderBook ⟨"B", 100, 5, 1, "buy"⟩) :=
    ReachableND.add _ _ h0 (by decide)
  have h2 : ReachableND (AddOrder (AddOrder NewOrderBook ⟨"B", 100, 5, 1, "buy"⟩)
      ⟨"S", 90, 3, 2, "sell"⟩) :=
    ReachableND.add _ _ h1 (by decide)
  have hr : ReachableND crossBook := h2
  exact ⟨hr, lookup_level_sync_of_reachableND hr⟩

/-- C5: in every reachable book state, best-first enumeration of the bid
index yields strictly decreasing prices and of the ask index strictly
increasing prices, and no two distinct levels of one side share a price. -/
theorem sides_sorted_of_reachable {ob : OrderBook} (h : Reachable ob) :
    List.Pairwise (fun x y : PriceLevel => y.Price < x.Price) ob.BuyTree ∧
    List.Pairwise (fun x y : PriceLevel => x.Price < y.Price) ob.SellTree ∧
    (ob.BuyTree.map PriceLevel.Price).Nodup ∧
    (ob.SellTree.map PriceLevel.Price).Nodup := by
  obtain ⟨hbuy, hsell⟩ := sorted_of_reachable h
  have h1 : List.Pairwise (fun x y : PriceLevel => y.Price < x.Price) ob.BuyTree := by
    refine List.Pairwise.imp ?_ hbuy
    intro x y hxy
    simpa [priceBetter] using hxy
  have h2 : List.Pairwise (fun x y : PriceLevel => x.Price < y.Price) ob.SellTree := by
    refine List.Pairwise.imp ?_ hsell
    intro x y hxy
    simpa [priceBetter] using hxy
  refine ⟨h1, h2, ?_, ?_⟩
  · rw [List.Nodup, List.pairwise_map]
    refine List.Pairwise.imp ?_ h1
    intro x y hxy
    exact ne_of_gt hxy
  · rw [List.Nodup, List.pairwise_map]
    refine List.Pairwise.imp ?_ h2
    intro x y hxy
    exact ne_of_lt hxy

/-- Witness for C5 at a concrete reachable book. -/
theorem sides_sorted_of_reachable_witness :
    Reachable scenarioBook ∧
    (List.Pairwise (fun x y : PriceLevel => y.Price < x.Price) scenarioBook.BuyTree ∧
     List.Pairwise (fun x y : PriceLevel => x.Price < y.Price) scenarioBook.SellTree ∧
     (scenarioBook.BuyTree.map PriceLevel.Price).Nodup ∧
     (scenarioBook.SellTree.map PriceLevel.Price).Nodup) :=
  ⟨⟨scenarioOps, rfl⟩, sides_sorted_of_reachable ⟨scenarioOps, rfl⟩⟩

/-- C6: every failing call of the four fallible operations returns the book
exactly as it was: both side indexes, the lookup map (indeed the whole
state) are unchanged on every error path. -/
theorem error_paths_no_mutation (ob : OrderBook) (id nside : String) (p q : ℚ) :
    ((RemoveOrder ob id).1.isSome → (RemoveOrder ob id).2 = ob) ∧
    ((ModifyOrderPrice ob id p).1.isSome → (ModifyOrderPrice ob id p).2 = ob) ∧
    ((ModifyOrderSide ob id nside).1.isSome → (ModifyOrderSide ob id nside).2 = ob) ∧
    ((ModifyOrderQuantity ob id q).1.isSome → (ModifyOrderQuantity ob id q).2 = ob) := by
  refine ⟨?_, ?_, ?_, ?_⟩
  · intro h
    cases hm : mapGet ob.Orders id with
    | none => simp [RemoveOrder, hm]
    | some a =>
      rw [RemoveOrder] at h
      simp [hm] at h
  · intro h
    cases hm : mapGet ob.Orders id with
    | none => simp [ModifyOrderPrice, hm]
    | some a =>
      rw [ModifyOrderPrice] at h
      simp [hm] at h
  · intro h
    by_cases hval : nside ≠ "buy" ∧ nside ≠ "sell"
    · simp [ModifyOrderSide, hval]
    · cases hm : mapGet ob.Orders id with
      | none => simp [ModifyOrderSide, hval, hm]
      | some a =>
        rw [ModifyOrderSide] at h
        simp [hval, hm] at h
  · intro h
    by_cases hneg : q < 0
    · simp [ModifyOrderQuantity, hneg]
    · cases hm : mapGet ob.Orders id with
      | none => simp [ModifyOrderQuantity, hneg, hm]
      | some a =>
        by_cases hzero : q = 0
        · rw [ModifyOrderQuantity] at h
          simp [hneg, hm, hzero] at h
        · rw [ModifyOrderQuantity] at h
          simp [hneg, hm, hzero] at h

/-- Witness for C6: all four operations fail on concrete inputs and leave
the empty book unchanged. -/
theorem error_paths_no_mutation_witness :
    (RemoveOrder NewOrderBook "z").1.isSome ∧
    (RemoveOrder NewOrderBook "z").2 = NewOrderBook ∧
    (ModifyOrderPrice NewOrderBook "z" 7).1.isSome ∧
    (ModifyOrderPrice NewOrderBook "z" 7).2 = NewOrderBook ∧
    (ModifyOrderSide NewOrderBook "z" "x").1.isSome ∧
    (ModifyOrderSide NewOrderBook "z" "x").2 = NewOrderBook ∧
    (ModifyOrderQuantity NewOrderBook "z" (-1)).1.isSome ∧
    (ModifyOrderQuantity NewOrderBook "z" (-1)).2 = NewOrderBook :=
  ⟨by decide, (error_paths_no_mutation NewOrderBook "z" "x" 7 (-1)).1 (by decide),
   by decide, (error_paths_no_mutation NewOrderBook "z" "x" 7 (-1)).2.1 (by decide),
   by decide, (error_paths_no_mutation NewOrderBook "z" "x" 7 (-1)).2.2.1 (by decide),
   by decide, (error_paths_no_mutation NewOrderBook "z" "x" 7 (-1)).2.2.2 (by decide)⟩

/-- C9: the current market price is the last traded price whenever that is
set (non-zero); otherwise it is the mid price, the arithmetic mean of best
bid and best ask, defined exactly when both sides are non-empty; and it is
unavailable when no trade price is recorded and a side is empty. -/
theorem market_price_fallback (ob : OrderBook) :
    (ob.LastTradedPrice ≠ 0 → GetCurrentMarketPrice ob = (ob.LastTradedPrice, true)) ∧
    (ob.LastTradedPrice = 0 → ob.BuyTree ≠ [] → ob.SellTree ≠ [] →
      GetMidPrice ob = (((GetBestBid ob).1 + (GetBestAsk ob).1) / 2, true) ∧
      GetCurrentMarketPrice ob = GetMidPrice ob) ∧
    (ob.LastTradedPrice = 0 → ob.BuyTree = [] ∨ ob.SellTree = [] →
      GetMidPrice ob = (0, false) ∧ GetCurrentMarketPrice ob = (0, false)) := by
  refine ⟨?_, ?_, ?_⟩
  · intro h
    rw [GetCurrentMarketPrice, if_pos h]
  · intro h0 hb hs
    cases htb : ob.BuyTree with
    | nil => exact absurd htb hb
    | cons lb tb =>
      cases hts : ob.SellTree with
      | nil => exact absurd hts hs
      | cons ls ts =>
        constructor
        · simp [GetMidPrice, GetBestBid, GetBestAsk, htb, hts]
        · simp [GetCurrentMarketPrice, GetMidPrice, GetBestBid, GetBestAsk, htb, hts, h0]
  · intro h0 hor
    have hmid : GetMidPrice ob = (0, false) := by
      rcases hor with h | h
      · simp [GetMidPrice, GetBestBid, h]
      · simp [GetMidPrice, GetBestAsk, h]
    refine ⟨hmid, ?_⟩
    simp [GetCurrentMarketPrice, h0, hmid]

/-- Witness for C9 on three concrete books exercising all three branches of
the fallback chain. -/
theorem market_price_fallback_witness :
    (scenarioFinal.LastTradedPrice ≠ 0 ∧
      GetCurrentMarketPrice scenarioFinal = (scenarioFinal.LastTradedPrice, true)) ∧
    (scenarioBook.LastTradedPrice = 0 ∧ scenarioBook.BuyTree ≠ [] ∧
      scenarioBook.SellTree ≠ [] ∧
      (GetMidPrice scenarioBook
          = (((GetBestBid scenarioBook).1 + (GetBestAsk scenarioBook).1) / 2, true) ∧
       GetCurrentMarketPrice scenarioBook = GetMidPrice scenarioBook)) ∧
    (NewOrderBook.LastTradedPrice = 0 ∧
      (NewOrderBook.BuyTree = [] ∨ NewOrderBook.SellTree = []) ∧
      (GetMidPrice NewOrderBook = (0, false) ∧
       GetCurrentMarketPrice NewOrderBook = (0, false))) :=
  ⟨⟨by with_unfolding_all decide,
    (market_price_fallback scenarioFinal).1 (by with_unfolding_all decide)⟩,
   ⟨by decide, by decide, by decide,
    (market_price_fallback scenarioBook).2.1 (by decide) (by decide) (by decide)⟩,
   ⟨by decide, Or.inl (by decide),
    (market_price_fallback NewOrderBook).2.2 (by decide) (Or.inl (by decide))⟩⟩

/-- C10: `AddOrder` validates nothing and cannot fail: an order with any side
string other than "buy" (also strings that are not "sell"), and arbitrary —
even zero or negative — price and quantity values, is stored unchanged,
registered in the lookup map, and appended to a level of the sell index,
leaving the buy index untouched. -/
theorem addOrder_no_validation (ob : OrderBook) (o : Order) (hside : o.Side ≠ "buy") :
    mapGet (AddOrder ob o).Orders o.OrderID = some ob.heap.length ∧
    heapGet (AddOrder ob o) ob.heap.length = o ∧
    (AddOrder ob o).BuyTree = ob.BuyTree ∧
    ∃ lvl ∈ (AddOrder ob o).SellTree, lvl.Price = o.Price ∧
      lvl.Orders.getLast? = some ob.heap.length := by
  have hga : heapGet { ob with heap := ob.heap ++ [o] } ob.heap.length = o :=
    heapGetL_append_self _ _
  have hbuy : decide ((heapGet { ob with heap := ob.heap ++ [o] } ob.heap.length).Side
      = "buy") = false := by
    rw [hga]
    simp [hside]
  refine ⟨?_, ?_, ?_, ?_⟩
  · show mapGet (addOrderAddr { ob with heap := ob.heap ++ [o] } ob.heap.length).Orders
        o.OrderID = some ob.heap.length
    rw [addOrderAddr_Orders, hga]
    exact mapGet_mapInsert_self _ _ _
  · show heapGet (addOrderAddr { ob with heap := ob.heap ++ [o] } ob.heap.length)
        ob.heap.length = o
    rw [heapGet_congr (addOrderAddr_heap _ _) _]
    exact hga
  · have h1 := addOrderAddr_otherTree { ob with heap := ob.heap ++ [o] } ob.heap.length
    rw [hbuy] at h1
    exact h1
  · have h2 := addOrderAddr_selfLevel { ob with heap := ob.heap ++ [o] } ob.heap.length
    rw [hbuy, hga] at h2
    exact h2

/-- Witness for C10: an order with side "banana", negative price and
quantity is admitted unchanged into the sell index of the empty book. -/
theorem addOrder_no_validation_witness :
    ((⟨"W", -5, -3, 0, "banana"⟩ : Order).Side ≠ "buy") ∧
    (mapGet (AddOrder NewOrderBook ⟨"W", -5, -3, 0, "banana"⟩).Orders
        (⟨"W", -5, -3, 0, "banana"⟩ : Order).OrderID = some NewOrderBook.heap.length ∧
     heapGet (AddOrder NewOrderBook ⟨"W", -5, -3, 0, "banana"⟩) NewOrderBook.heap.length
        = ⟨"W", -5, -3, 0, "banana"⟩ ∧
     (AddOrder NewOrderBook ⟨"W", -5, -3, 0, "banana"⟩).BuyTree = NewOrderBook.BuyTree ∧
     ∃ lvl ∈ (AddOrder NewOrderBook ⟨"W", -5, -3, 0, "banana"⟩).SellTree,
       lvl.Price = (⟨"W", -5, -3, 0, "banana"⟩ : Order).Price ∧
       lvl.Orders.getLast? = some NewOrderBook.heap.length) :=
  ⟨by decide, addOrder_no_validation NewOrderBook ⟨"W", -5, -3, 0, "banana"⟩ (by decide)⟩

/-- C2 counterexample: `divergeBook` is reachable by the documented
operations and one matching iteration turns it into `spinBook`; in the next
iteration the best bid and ask levels are non-empty and cross, the oldest
best-bid order has remaining quantity exactly zero, yet the iteration
removes it neither from its price level nor does the level disappear — the
iteration returns the book unchanged. -/
theorem matchStep_zero_not_removed_cex :
    Reachable divergeBook ∧
    matchStep divergeBook = some spinBook ∧
    (GetBestBid spinBook).2 = true ∧ (GetBestAsk spinBook).2 = true ∧
    (GetBestAsk spinBook).1 ≤ (GetBestBid spinBook).1 ∧
    spinBook.BuyTree.head? = some ⟨100, [1], "buy"⟩ ∧
    (heapGet spinBook 1).Quantity = 0 ∧
    matchStep spinBook = some spinBook ∧
    1 ∈ allAddrs spinBook :=
  ⟨⟨divergeOps, rfl⟩, by with_unfolding_all decide⟩

/-- C2 (amended): in every matching iteration from a well-formed book — which
excludes the stale-pointer states reachable through duplicate-id admission —
where both best levels exist and cross, the trade pairs the oldest order of
the best bid level with the oldest order of the best ask level, the trade
price is the resting ask order's price, the trade quantity is the minimum of
the two remaining quantities, both quantities are decremented by it, an
order whose quantity reaches exactly zero is removed from the levels and
from the id-lookup map, and no empty level survives the iteration. -/
theorem matchStep_trade_spec (ob : OrderBook) (hwf : WF ob)
    (hb ls : PriceLevel) (b s : ℕ)
    (hhb : ob.BuyTree.head? = some hb) (hls : ob.SellTree.head? = some ls)
    (hcross : ls.Price ≤ hb.Price)
    (hbo : hb.Orders.head? = some b) (hso : ls.Orders.head? = some s) :
    ∃ ob5, matchStep ob = some ob5 ∧
      ob5.LastTradedPrice = (heapGet ob s).Price ∧
      (heapGet ob5 b).Quantity = (heapGet ob b).Quantity -
        fmin (heapGet ob b).Quantity (heapGet ob s).Quantity ∧
      (heapGet ob5 s).Quantity = (heapGet ob s).Quantity -
        fmin (heapGet ob b).Quantity (heapGet ob s).Quantity ∧
      ((heapGet ob5 b).Quantity = 0 →
        b ∉ allAddrs ob5 ∧ mapGet ob5.Orders (heapGet ob b).OrderID = none) ∧
      ((heapGet ob5 s).Quantity = 0 →
        s ∉ allAddrs ob5 ∧ mapGet ob5.Orders (heapGet ob s).OrderID = none) ∧
      (∀ buy : Bool, ∀ lvl ∈ getTreeB ob5 buy, lvl.Orders ≠ []) := by
  obtain ⟨ob5, h1, hwf5, _, h3, h4, h5, h6, h7, _⟩ :=
    matchStep_spec ob hwf hb ls b s hhb hls hcross hbo hso
  refine ⟨ob5, h1, h3, h4, h5, h6, h7, ?_⟩
  intro buy lvl hl
  exact (treesOK_level ((WF_iff ob5).mp hwf5).1 buy lvl hl).1

/-- Witness for the amended C2: the crossed two-order book trades B against
S at price 90 for quantity 3. -/
theorem matchStep_trade_spec_witness :
    WF crossBook ∧
    crossBook.BuyTree.head? = some ⟨100, [0], "buy"⟩ ∧
    crossBook.SellTree.head? = some ⟨90, [1], "sell"⟩ ∧
    (PriceLevel.Price ⟨90, [1], "sell"⟩ ≤ PriceLevel.Price ⟨100, [0], "buy"⟩) ∧
    (∃ ob5, matchStep crossBook = some ob5 ∧
      ob5.LastTradedPrice = (heapGet crossBook 1).Price ∧
      (heapGet ob5 0).Quantity = (heapGet crossBook 0).Quantity -
        fmin (heapGet crossBook 0).Quantity (heapGet crossBook 1).Quantity ∧
      (heapGet ob5 1).Quantity = (heapGet crossBook 1).Quantity -
        fmin (heapGet crossBook 0).Quantity (heapGet crossBook 1).Quantity ∧
      ((heapGet ob5 0).Quantity = 0 →
        0 ∉ allAddrs ob5 ∧ mapGet ob5.Orders (heapGet crossBook 0).OrderID = none) ∧
      ((heapGet ob5 1).Quantity = 0 →
        1 ∉ allAddrs ob5 ∧ mapGet ob5.Orders (heapGet crossBook 1).OrderID = none) ∧
      (∀ buy : Bool, ∀ lvl ∈ getTreeB ob5 buy, lvl.Orders ≠ [])) :=
  ⟨by decide, by decide, by decide, by decide,
   matchStep_trade_spec crossBook (by decide) ⟨100, [0], "buy"⟩ ⟨90, [1], "sell"⟩ 0 1
     (by decide) (by decide) (by decide) (by decide) (by decide)⟩

/-- A book on which one matching iteration is a fixpoint makes the matching
procedure run out of any amount of fuel. -/
theorem spin_fuel {sb : OrderBook} (h : matchStep sb = some sb) :
    ∀ n, MatchOrdersFuel n sb = none := by
  intro n
  induction n with
  | zero => rfl
  | succ m ih =>
    show (match matchStep sb with
      | none => some sb
      | some ob1 => MatchOrdersFuel m ob1) = none
    rw [h]
    exact ih

/-- C3 counterexample: `divergeBook` is reachable by the documented
operations, every resting quantity in it is non-negative, yet the matching
procedure never terminates on it: the loop keeps iterating for every amount
of fuel. -/
theorem matchOrders_divergence_cex :
    Reachable divergeBook ∧
    (∀ a ∈ allAddrs divergeBook, 0 ≤ (heapGet divergeBook a).Quantity) ∧
    ∀ n : ℕ, MatchOrdersFuel n divergeBook = none := by
  have hd : matchStep divergeBook = some spinBook := by with_unfolding_all decide
  have hs : matchStep spinBook = some spinBook := by with_unfolding_all decide
  refine ⟨⟨divergeOps, rfl⟩, by decide, ?_⟩
  intro n
  cases n with
  | zero => rfl
  | succ m =>
    show (match matchStep divergeBook with
      | none => some divergeBook
      | some ob1 => MatchOrdersFuel m ob1) = none
    rw [hd]
    exact spin_fuel hs m

/-- C3 (amended): for every book state reachable by the documented
operations with no duplicate-id admission, the matching procedure
terminates — the loop exits within any fuel beyond the number of resting
orders — and the final state does not have best bid and best ask both
defined with bid ≥ ask. -/
theorem matchOrders_terminates_no_cross {ob : OrderBook} (h : ReachableND ob) :
    ∃ n r, MatchOrdersFuel n ob = some r ∧
      ¬((GetBestBid r).2 = true ∧ (GetBestAsk r).2 = true ∧
        (GetBestAsk r).1 ≤ (GetBestBid r).1) := by
  have hwf := wf_of_reachableND h
  obtain ⟨r, hr, hwfr, hnone⟩ :=
    matchFuel_terminates (addrCount ob + 1) ob hwf (Nat.lt_succ_self _)
  exact ⟨addrCount ob + 1, r, hr, matchStep_none_nocross hwfr hnone⟩

/-- Witness for the amended C3 at the concrete four-order history. -/
theorem matchOrders_terminates_no_cross_witness :
    ReachableND scenarioBook ∧
    ∃ n r, MatchOrdersFuel n scenarioBook = some r ∧
      ¬((GetBestBid r).2 = true ∧ (GetBestAsk r).2 = true ∧
        (GetBestAsk r).1 ≤ (GetBestBid r).1) := by
  have h0 : ReachableND NewOrderBook := ReachableND.init
  have h1 := ReachableND.add _ ⟨"B1", 100, 10, 1, "buy"⟩ h0 (by decide)
  have h2 := ReachableND.add _ ⟨"S1", 105, 5, 2, "sell"⟩ h1 (by decide)
  have h3 := ReachableND.add _ ⟨"B2", 102, 7, 3, "buy"⟩ h2 (by decide)
  have h4 := ReachableND.add _ ⟨"S2", 99, 8, 4, "sell"⟩ h3 (by decide)
  have hr : ReachableND scenarioBook := h4
  exact ⟨hr, matchOrders_terminates_no_cross hr⟩

/-- C8 counterexample: on the reachable state `divergeBook` — reached
through a duplicate-id admission and a price modification — the id "X" is in
the lookup map, `ModifyOrderQuantity` with new quantity zero succeeds, yet
the order is not removed from the book's price levels: its address is still
resting in the result. -/
theorem modifyQuantity_cex :
    Reachable divergeBook ∧
    mapGet divergeBook.Orders "X" = some 1 ∧
    (ModifyOrderQuantity divergeBook "X" 0).1 = none ∧
    1 ∈ allAddrs (ModifyOrderQuantity divergeBook "X" 0).2 :=
  ⟨⟨divergeOps, rfl⟩, by decide⟩

/-- C8 (amended): from a well-formed book state — which excludes the
stale-pointer states reachable through duplicate-id admission —
`ModifyOrderQuantity` fails with the invalid-quantity error and no change on
every negative quantity, fails with the not-found error and no change when
the id is absent from the lookup map, removes the order from the book's
levels (no empty level survives) and deletes the id from the lookup map
(leaving other ids alone) when the quantity is exactly zero, and otherwise
updates the order's quantity in place: both side indexes and the map are
untouched — so the order's position within its level's sequence is
unchanged — and only that order's heap cell changes, to the same order with
the new quantity. -/
theorem modifyQuantity_spec (ob : OrderBook) (id : String) (q : ℚ) (hwf : WF ob) :
    (q < 0 → ModifyOrderQuantity ob id q = (some "invalid quantity", ob)) ∧
    (¬ q < 0 → mapGet ob.Orders id = none →
      ModifyOrderQuantity ob id q = (some "order not found", ob)) ∧
    (∀ a, ¬ q < 0 → mapGet ob.Orders id = some a → q = 0 →
      (ModifyOrderQuantity ob id q).1 = none ∧
      a ∉ allAddrs (ModifyOrderQuantity ob id q).2 ∧
      mapGet (ModifyOrderQuantity ob id q).2.Orders id = none ∧
      (∀ id2, id2 ≠ id →
        mapGet (ModifyOrderQuantity ob id q).2.Orders id2 = mapGet ob.Orders id2) ∧
      (∀ buy : Bool, ∀ lvl ∈ getTreeB (ModifyOrderQuantity ob id q).2 buy,
        lvl.Orders ≠ [])) ∧
    (∀ a, ¬ q < 0 → mapGet ob.Orders id = some a → q ≠ 0 →
      (ModifyOrderQuantity ob id q).1 = none ∧
      (ModifyOrderQuantity ob id q).2.BuyTree = ob.BuyTree ∧
      (ModifyOrderQuantity ob id q).2.SellTree = ob.SellTree ∧
      (ModifyOrderQuantity ob id q).2.Orders = ob.Orders ∧
      heapGet (ModifyOrderQuantity ob id q).2 a = { heapGet ob a with Quantity := q } ∧
      (∀ x, x ≠ a → heapGet (ModifyOrderQuantity ob id q).2 x = heapGet ob x)) := by
  refine ⟨?_, ?_, ?_, ?_⟩
  · intro hneg
    rw [ModifyOrderQuantity, if_pos hneg]
  · intro hneg hm
    simp only [ModifyOrderQuantity, if_neg hneg, hm]
  · intro a hneg hm hq
    have hres : ModifyOrderQuantity ob id q =
        (none, { removeOrderAddr ob a with
                 Orders := mapDelete id (removeOrderAddr ob a).Orders }) := by
      simp only [ModifyOrderQuantity, if_neg hneg, hm, if_pos hq]
    obtain ⟨hwfres, _, _, _, hnot, _, _, hmapnone, hmapother⟩ :=
      removeAndDelete_WF ob
        { removeOrderAddr ob a with
          Orders := mapDelete id (removeOrderAddr ob a).Orders } id a hwf hm rfl
    rw [hres]
    refine ⟨rfl, hnot, hmapnone, hmapother, ?_⟩
    intro buy lvl hl
    exact (treesOK_level ((WF_iff _).mp hwfres).1 buy lvl hl).1
  · intro a hneg hm hq
    have hres : ModifyOrderQuantity ob id q =
        (none, heapSet ob a { heapGet ob a with Quantity := q }) := by
      simp only [ModifyOrderQuantity, if_neg hneg, hm, if_neg hq]
    have hlt : a < ob.heap.length := by
      have hmem := ((WF_iff ob).mp hwf).2.2.1 (id, a) (mapGet_eq_some_mem _ _ _ hm)
      exact treesOK_valid ((WF_iff ob).mp hwf).1 a hmem.1
    rw [hres]
    exact ⟨rfl, rfl, rfl, rfl, heapSet_get_self _ _ _ hlt,
      fun x hx => heapSet_get_ne _ _ _ _ (fun hc => hx hc.symm)⟩

/-- Witness for the amended C8: raising B1's quantity to 4 in the four-order
book edits the heap cell in place and nothing else. -/
theorem modifyQuantity_spec_witness :
    WF scenarioBook ∧
    ((ModifyOrderQuantity scenarioBook "B1" 4).1 = none ∧
     (ModifyOrderQuantity scenarioBook "B1" 4).2.BuyTree = scenarioBook.BuyTree ∧
     (ModifyOrderQuantity scenarioBook "B1" 4).2.SellTree = scenarioBook.SellTree ∧
     (ModifyOrderQuantity scenarioBook "B1" 4).2.Orders = scenarioBook.Orders ∧
     heapGet (ModifyOrderQuantity scenarioBook "B1" 4).2 0 =
       { heapGet scenarioBook 0 with Quantity := 4 } ∧
     (∀ x, x ≠ 0 → heapGet (ModifyOrderQuantity scenarioBook "B1" 4).2 x
        = heapGet scenarioBook x)) :=
  ⟨by decide,
   (modifyQuantity_spec scenarioBook "B1" 4 (by decide)).2.2.2 0
     (by decide) (by decide) (by decide)⟩

/-- Resolving a tree's levels through two books agreeing on the resting
cells yields the same priced order sequences. -/
theorem resolvedTree_congr (ob1 ob2 : OrderBook) (t : List PriceLevel)
    (h : ∀ lvl ∈ t, ∀ a ∈ lvl.Orders, heapGet ob1 a = heapGet ob2 a) :
    resolvedTree ob1 t = resolvedTree ob2 t := by
  refine List.map_congr_left ?_
  intro lvl hl
  refine congrArg (fun x => (lvl.Price, x)) ?_
  exact List.map_congr_left fun a ha => h lvl hl a ha

/-- C7 counterexample: `orphanBook` is reachable by the documented
operations and the id "X" is absent from its lookup map, yet adding a fresh
order under id "X" and then removing "X" succeeds without restoring the
book: the round trip deletes a stale resting order with the same id instead
of the one just added, and the resolved bid side differs from the prior
one. -/
theorem add_remove_roundtrip_cex :
    Reachable orphanBook ∧
    mapGet orphanBook.Orders "X" = none ∧
    (RemoveOrder (AddOrder orphanBook ⟨"X", 100, 9, 4, "buy"⟩) "X").1 = none ∧
    resolvedTree (RemoveOrder (AddOrder orphanBook ⟨"X", 100, 9, 4, "buy"⟩) "X").2
        (RemoveOrder (AddOrder orphanBook ⟨"X", 100, 9, 4, "buy"⟩) "X").2.BuyTree
      ≠ resolvedTree orphanBook orphanBook.BuyTree :=
  ⟨⟨orphanOps, rfl⟩, by decide⟩

/-- C7 (amended): for every well-formed book state — which excludes the
stale-pointer states reachable through duplicate-id admission — and every
order whose identifier is not in the id-lookup map, `AddOrder` followed by
`RemoveOrder` of that identifier succeeds and restores the book: both side
indexes, the lookup map, every previously allocated order cell, and hence
both resolved level sequences are exactly as before. -/
theorem add_remove_roundtrip (ob : OrderBook) (o : Order) (hwf : WF ob)
    (hfresh : mapGet ob.Orders o.OrderID = none) :
    (RemoveOrder (AddOrder ob o) o.OrderID).1 = none ∧
    (RemoveOrder (AddOrder ob o) o.OrderID).2.BuyTree = ob.BuyTree ∧
    (RemoveOrder (AddOrder ob o) o.OrderID).2.SellTree = ob.SellTree ∧
    (RemoveOrder (AddOrder ob o) o.OrderID).2.Orders = ob.Orders ∧
    (∀ x < ob.heap.length,
      heapGet (RemoveOrder (AddOrder ob o) o.OrderID).2 x = heapGet ob x) ∧
    resolvedTree (RemoveOrder (AddOrder ob o) o.OrderID).2
        (RemoveOrder (AddOrder ob o) o.OrderID).2.BuyTree
      = resolvedTree ob ob.BuyTree ∧
    resolvedTree (RemoveOrder (AddOrder ob o) o.OrderID).2
        (RemoveOrder (AddOrder ob o) o.OrderID).2.SellTree
      = resolvedTree ob ob.SellTree := by
  obtain ⟨htre, hmap⟩ := (WF_iff ob).mp hwf
  set obE : OrderBook := { ob with heap := ob.heap ++ [o] } with hobE
  set n := ob.heap.length with hn
  have hA : AddOrder ob o = addOrderAddr obE n := rfl
  have hga : heapGet obE n = o := heapGetL_append_self _ _
  have hEtree : ∀ c : Bool, getTreeB obE c = getTreeB ob c := by
    intro c
    cases c <;> rfl
  have hs0 : SortedT (decide ((heapGet obE n).Side = "buy"))
      (getTreeB obE (decide ((heapGet obE n).Side = "buy"))) := by
    rw [hga, hEtree]
    exact treesOK_sorted htre _
  obtain ⟨hh, hOrd, hltp, hother, hsortA, t₁, t₂, os, sd, hne, hteq, hcases⟩ :=
    addOrderAddr_decomp obE n hs0
  rw [hga] at hOrd hother hsortA hne hteq hcases
  rw [hEtree] at hother hcases
  have hEOrd : obE.Orders = ob.Orders := rfl
  have hEheap : obE.heap = ob.heap ++ [o] := rfl
  rw [hEOrd] at hOrd
  rw [hEheap] at hh
  rw [hA]
  set A := addOrderAddr obE n with hAdef
  have hAmap : mapGet A.Orders o.OrderID = some n := by
    rw [hOrd]
    exact mapGet_mapInsert_self _ _ _
  have hOrdApp : A.Orders = ob.Orders ++ [(o.OrderID, n)] := by
    rw [hOrd]
    exact mapInsert_of_get_none _ _ _ hfresh
  have hrem : RemoveOrder A o.OrderID =
      (none, { removeOrderAddr A n with
               Orders := mapDelete o.OrderID (removeOrderAddr A n).Orders }) := by
    simp only [RemoveOrder, hAmap]
  have hgA : heapGet A n = o := by
    show heapGetL A.heap n = o
    rw [hh]
    exact heapGetL_append_self _ _
  have hfind : treeFind (getTreeB A (decide (o.Side = "buy"))) o.Price
      = some ⟨o.Price, os ++ [n], sd⟩ := by
    have hmem : (⟨o.Price, os ++ [n], sd⟩ : PriceLevel)
        ∈ getTreeB A (decide (o.Side = "buy")) := by
      rw [hteq]
      exact List.mem_append_right _ (List.mem_cons_self _ _)
    exact treeFind_of_sorted_mem hsortA hmem
  have hosid : ∀ x ∈ os, (heapGetL A.heap x).OrderID ≠ o.OrderID := by
    rcases hcases with ⟨hos, _, _⟩ | hteq0
    · intro x hx
      rw [hos] at hx
      exact absurd hx (List.not_mem_nil x)
    · intro x hx
      have hmem0 : (⟨o.Price, os, sd⟩ : PriceLevel)
          ∈ getTreeB ob (decide (o.Side = "buy")) := by
        rw [hteq0]
        exact List.mem_append_right _ (List.mem_cons_self _ _)
      have hxinfo := (treesOK_level htre _ _ hmem0).2.2 x hx
      have hxA : heapGetL A.heap x = heapGet ob x := by
        rw [hh]
        exact heapGetL_append _ _ _ hxinfo.1
      rw [hxA]
      intro hc
      have hx2 := hmap.2.2 x (mem_allAddrs_of_level hmem0 hx)
      rw [hc, hfresh] at hx2
      exact Option.noConfusion hx2
  have hidn : (heapGetL A.heap n).OrderID = o.OrderID := congrArg Order.OrderID hgA
  have hremid : removeFirstID A.heap o.OrderID (os ++ [n]) = some os := by
    have h2 := removeFirstID_spec A.heap o.OrderID os [] n hosid hidn
    rw [List.append_nil] at h2
    exact h2
  have hro : removeOrderAddr A n
      = setTreeB A (decide (o.Side = "buy")) (getTreeB ob (decide (o.Side = "buy"))) := by
    rw [removeOrderAddr, hgA, hfind]
    simp only [hremid]
    rcases hcases with ⟨hos, hsd, hteqob⟩ | hteq0
    · rw [if_pos hos]
      refine congrArg (setTreeB A (decide (o.Side = "buy"))) ?_
      show treeDelete o.Price (getTreeB A (decide (o.Side = "buy")))
          = getTreeB ob (decide (o.Side = "buy"))
      rw [hteq, hteqob]
      refine treeDelete_of_decomp _ _ _ _ ?_ rfl
      intro l hl
      exact hne l (List.mem_append_left _ hl)
    · have hmem0 : (⟨o.Price, os, sd⟩ : PriceLevel)
          ∈ getTreeB ob (decide (o.Side = "buy")) := by
        rw [hteq0]
        exact List.mem_append_right _ (List.mem_cons_self _ _)
      have hosne : os ≠ [] := (treesOK_level htre _ _ hmem0).1
      rw [if_neg hosne]
      refine congrArg (setTreeB A (decide (o.Side = "buy"))) ?_
      show treeInsert (decide (o.Side = "buy")) ⟨o.Price, os, sd⟩
            (getTreeB A (decide (o.Side = "buy")))
          = getTreeB ob (decide (o.Side = "buy"))
      have hprefix : ∀ l ∈ t₁, priceBetter (decide (o.Side = "buy")) l.Price
          (PriceLevel.Price ⟨o.Price, os, sd⟩) = true := by
        have hsp := hteq ▸ hsortA
        rw [SortedT, List.pairwise_append] at hsp
        intro l hl
        have h5 := hsp.2.2 l hl ⟨o.Price, os ++ [n], sd⟩ (List.mem_cons_self _ _)
        exact h5
      rw [hteq, hteq0]
      exact treeInsert_at _ _ _ t₁ t₂ hprefix rfl
  have hB2heap : (setTreeB A (decide (o.Side = "buy"))
      (getTreeB ob (decide (o.Side = "buy")))).heap = ob.heap ++ [o] := by
    rw [setTreeB_heap]
    exact hh
  have hRtree : ∀ c : Bool,
      getTreeB (setTreeB A (decide (o.Side = "buy"))
        (getTreeB ob (decide (o.Side = "buy")))) c = getTreeB ob c := by
    intro c
    by_cases hc : c = decide (o.Side = "buy")
    · rw [hc, getTreeB_setTreeB_same]
    · have hcn : c = !decide (o.Side = "buy") := by
        cases hcv : c <;> cases hdv : decide (o.Side = "buy") <;> simp_all
      rw [hcn, getTreeB_setTreeB_other]
      exact hother
  have hOrdDel : mapDelete o.OrderID (setTreeB A (decide (o.Side = "buy"))
      (getTreeB ob (decide (o.Side = "buy")))).Orders = ob.Orders := by
    rw [setTreeB_Orders, hOrdApp]
    exact mapDelete_append_last _ _ _ ((mapGet_none_iff _ _).mp hfresh)
  have main : ∀ R : OrderBook,
      (∀ c, getTreeB R c = getTreeB ob c) →
      R.heap = ob.heap ++ [o] →
      R.Orders = ob.Orders →
      R.BuyTree = ob.BuyTree ∧ R.SellTree = ob.SellTree ∧ R.Orders = ob.Orders ∧
      (∀ x < ob.heap.length, heapGet R x = heapGet ob x) ∧
      resolvedTree R R.BuyTree = resolvedTree ob ob.BuyTree ∧
      resolvedTree R R.SellTree = resolvedTree ob ob.SellTree := by
    intro R htr hhp hord
    have hget : ∀ x, x < ob.heap.length → heapGet R x = heapGet ob x := by
      intro x hx
      show heapGetL R.heap x = heapGet ob x
      rw [hhp]
      exact heapGetL_append _ _ _ hx
    have hbt : R.BuyTree = ob.BuyTree := htr true
    have hst : R.SellTree = ob.SellTree := htr false
    refine ⟨hbt, hst, hord, hget, ?_, ?_⟩
    · rw [hbt]
      refine resolvedTree_congr _ ob ob.BuyTree ?_
      intro lvl hl a ha
      exact hget a (treesOK_valid htre a (@mem_allAddrs_of_level ob true lvl a hl ha))
    · rw [hst]
      refine resolvedTree_congr _ ob ob.SellTree ?_
      intro lvl hl a ha
      exact hget a (treesOK_valid htre a (@mem_allAddrs_of_level ob false lvl a hl ha))
  have htr2 : ∀ c, getTreeB (RemoveOrder A o.OrderID).2 c = getTreeB ob c := by
    intro c
    rw [hrem, hro]
    cases c
    · exact hRtree false
    · exact hRtree true
  have hhp2 : (RemoveOrder A o.OrderID).2.heap = ob.heap ++ [o] := by
    rw [hrem, hro]
    exact hB2heap
  have hord2 : (RemoveOrder A o.OrderID).2.Orders = ob.Orders := by
    rw [hrem, hro]
    exact hOrdDel
  refine ⟨?_, main (RemoveOrder A o.OrderID).2 htr2 hhp2 hord2⟩
  rw [hrem]

/-- Witness for the amended C7: adding and removing a fresh order "N"
restores the four-order book exactly. -/
theorem add_remove_roundtrip_witness :
    WF scenarioBook ∧
    mapGet scenarioBook.Orders "N" = none ∧
    ((RemoveOrder (AddOrder scenarioBook ⟨"N", 101, 2, 9, "buy"⟩) "N").1 = none ∧
     (RemoveOrder (AddOrder scenarioBook ⟨"N", 101, 2, 9, "buy"⟩) "N").2.BuyTree
        = scenarioBook.BuyTree ∧
     (RemoveOrder (AddOrder scenarioBook ⟨"N", 101, 2, 9, "buy"⟩) "N").2.SellTree
        = scenarioBook.SellTree ∧
     (RemoveOrder (AddOrder scenarioBook ⟨"N", 101, 2, 9, "buy"⟩) "N").2.Orders
        = scenarioBook.Orders ∧
     (∀ x < scenarioBook.heap.length,
       heapGet (RemoveOrder (AddOrder scenarioBook ⟨"N", 101, 2, 9, "buy"⟩) "N").2 x
         = heapGet scenarioBook x) ∧
     resolvedTree (RemoveOrder (AddOrder scenarioBook ⟨"N", 101, 2, 9, "buy"⟩) "N").2
         (RemoveOrder (AddOrder scenarioBook ⟨"N", 101, 2, 9, "buy"⟩) "N").2.BuyTree
       = resolvedTree scenarioBook scenarioBook.BuyTree ∧
     resolvedTree (RemoveOrder (AddOrder scenarioBook ⟨"N", 101, 2, 9, "buy"⟩) "N").2
         (RemoveOrder (AddOrder scenarioBook ⟨"N", 101, 2, 9, "buy"⟩) "N").2.SellTree
       = resolvedTree scenarioBook scenarioBook.SellTree) :=
  ⟨by decide, by decide,
   add_remove_roundtrip scenarioBook ⟨"N", 101, 2, 9, "buy"⟩ (by decide) (by decide)⟩
